import Mathlib

/-!
Verification development for the treaccp repository: a cryptographic set
accumulator built on a Merkle-committed treap.

The embedding mirrors `treaccp/nodes.py`, `treaccp/acc.py` and
`treaccp/tree.py`.  Python's SHA-256-based hash `H` first stringifies its
input and then hashes; we model the composite map
`s ↦ int(sha256(s).hexdigest(), 16)` as an abstract parameter
`sha : String → Int`, and we model the digests produced for tree nodes as a
free term algebra `Digest` (the collision-resistance idealisation: two node
digests coincide exactly when the committed data coincides).  A Python value
that can be `None`, a `CompressedNode` or a `Node` is modelled by the
three-constructor type `T`.  Exceptions are modelled with `Except Err`;
Python `assert` failures, `AttributeError` and `IndexError` get their own
error constructors so that error behaviour is preserved exactly.
-/

namespace Treaccp

/-- The digests handed out by the hash function, as a free algebra:
`hnone` is `HASH_NONE = H("None")` and `hnode k p l r` is
`H(str(k) + str(p) + l + r)`, the Merkle root of a node. -/
inductive Digest : Type where
  | hnone : Digest
  | hnode (key prior : Int) (l r : Digest) : Digest
deriving DecidableEq, Repr

/-- A Python treap value: `None`, a `CompressedNode` (key, priority and the
two child digests) or a regular `Node` (key, priority and two children). -/
inductive T : Type where
  | none : T
  | comp (key prior : Int) (lh rh : Digest) : T
  | node (key prior : Int) (l r : T) : T
deriving DecidableEq, Repr

/-- The exceptions the Python code can raise.  The first six are the error
classes the library defines (plus `ErrNoRootNode` from `tree.py`); the last
three model Python `AssertionError`, `AttributeError` and `IndexError`. -/
inductive Err : Type where
  | keyNotInTree : Err
  | keyInTree : Err
  | merkleRootMismatch : Err
  | invalidProof : Err
  | touchedCompressedNode : Err
  | noRoot : Err
  | assertionFailed : Err
  | attributeError : Err
  | indexError : Err
deriving DecidableEq, Repr

/-- User-level elements: the repository's tests only use ints and strings,
and `H` stringifies its argument anyway. -/
inductive PyVal : Type where
  | int (n : Int) : PyVal
  | str (s : String) : PyVal
deriving DecidableEq, Repr

/-- Node-variant tag used by `collect_keys(extended=True)`:
"N" for regular nodes, "C" for compressed ones. -/
inductive Tag : Type where
  | N : Tag
  | C : Tag
deriving DecidableEq, Repr

/-- Python's `str` on the values we care about (decimal form for ints,
identity on strings): the stringification performed inside `H`. -/
def pyStr : PyVal → String
  | .int n => toString n
  | .str s => s

/-- `to_key(el) = int(H(el), 16)` where `H` stringifies first. -/
def to_key (sha : String → Int) (el : PyVal) : Int :=
  sha (pyStr el)

/-- `to_priority(key) = int(H(str(key)), 16)`. -/
def to_priority (sha : String → Int) (k : Int) : Int :=
  sha (toString k)

/-- The stored/recomputed `merkle_root` of a value.  In the code every node
computes its Merkle root at construction time and nodes are immutable, so
the stored field always equals this recursive recomputation; `HASH_NONE`
stands for an absent child. -/
def merkleRoot : T → Digest
  | .none => .hnone
  | .comp k p lh rh => .hnode k p lh rh
  | .node k p l r => .hnode k p (merkleRoot l) (merkleRoot r)

/-- `Node.compress`: replace a regular node by a `CompressedNode` holding the
children's digests.  The `CompressedNode` constructor re-derives the priority
from the key.  (The source only ever calls this on regular nodes; the other
branches are not reached.) -/
def compress (sha : String → Int) : T → T
  | .node k _ l r => .comp k (to_priority sha k) (merkleRoot l) (merkleRoot r)
  | t => t

/-- `compress(child) if child else None`, the pattern used at every call
site of `compress` in `_compress_tree_for`. -/
def compressOpt (sha : String → Int) : T → T
  | .none => .none
  | t => compress sha t

/-- `collect_keys` (non-extended): all keys stored in the value; compressed
nodes contribute only their own key. -/
def collect_keys : T → Finset Int
  | .none => ∅
  | .comp k _ _ _ => {k}
  | .node k _ l r => collect_keys l ∪ {k} ∪ collect_keys r

/-- `collect_keys(extended=True)`: keys together with the node-variant tag
and, for each node, its Merkle root. -/
def collect_keys_ext : T → Finset (Int × Tag × Digest)
  | .none => ∅
  | .comp k p lh rh => {(k, Tag.C, Digest.hnode k p lh rh)}
  | .node k p l r =>
      collect_keys_ext l ∪ {(k, Tag.N, merkleRoot (.node k p l r))} ∪ collect_keys_ext r

/-- `split(t, key, equal_on_the_left)`: raises *TouchedCompressedNode* on a
compressed node, otherwise partitions the tree around `key`. -/
def split : T → Int → Bool → Except Err (T × T)
  | .comp _ _ _ _, _, _ => .error .touchedCompressedNode
  | .none, _, _ => pure (.none, .none)
  | .node k p l r, key, eqL =>
      if k < key ∨ (eqL ∧ k = key) then do
        let (L, R) ← split r key eqL
        pure (.node k p l L, R)
      else do
        let (L, R) ← split l key eqL
        pure (L, .node k p R r)

/-- Structural size of a value (number of constructors), the termination
measure for `merge`. -/
def tsize : T → Nat
  | .none => 1
  | .comp _ _ _ _ => 1
  | .node _ _ l r => 1 + tsize l + tsize r

/-- `merge(t1, t2)`: raises *TouchedCompressedNode* if either root is
compressed, otherwise roots the higher-priority side. -/
def merge : T → T → Except Err T
  | .comp _ _ _ _, _ => .error .touchedCompressedNode
  | _, .comp _ _ _ _ => .error .touchedCompressedNode
  | .none, b => pure b
  | a, .none => pure a
  | .node k1 p1 l1 r1, .node k2 p2 l2 r2 =>
      if p1 > p2 then do
        let m ← merge r1 (.node k2 p2 l2 r2)
        pure (.node k1 p1 l1 m)
      else do
        let m ← merge (.node k1 p1 l1 r1) l2
        pure (.node k2 p2 m r2)
termination_by t1 t2 => tsize t1 + tsize t2
decreasing_by all_goals simp [tsize] <;> omega

/-- `find(t, key)`: BST search; raises *TouchedCompressedNode* on a
compressed node, returns `none` when the search falls off the tree. -/
def find : T → Int → Except Err (Option T)
  | .comp _ _ _ _, _ => .error .touchedCompressedNode
  | .none, _ => pure Option.none
  | .node k p l r, key =>
      if k = key then pure (Option.some (.node k p l r))
      else if key ≥ k then find r key else find l key

/-- `find_path(t, key)`: the list of nodes visited by a BST search, ending
with the found node or with `None`.  On a compressed node whose key is not
the target the Python code would hit an `AttributeError` (no `left`/`right`
attribute). -/
def find_path : T → Int → Except Err (List T)
  | .none, _ => pure [T.none]
  | .comp k p lh rh, key =>
      if k = key then pure [T.comp k p lh rh] else .error .attributeError
  | .node k p l r, key =>
      if k = key then pure [T.node k p l r]
      else do
        let path ← (if key ≥ k then find_path r key else find_path l key)
        pure (T.node k p l r :: path)

/-- `insert(t, key)`: split, check the key is absent, then merge with a
fresh node (whose priority is derived from the key). -/
def insert (sha : String → Int) (t : T) (key : Int) : Except Err T := do
  let (L, R) ← split t key false
  match ← find R key with
  | Option.some _ => .error .keyInTree
  | Option.none => do
      let newNode : T := .node key (to_priority sha key) .none .none
      let m ← merge newNode R
      merge L m

/-- `remove(t, key)`: split at `key`; if the right part is truthy, split it
again keeping `key` on the left and require that part to be present;
otherwise silently merge the pieces back. -/
def remove (t : T) (key : Int) : Except Err T := do
  let (L, R) ← split t key false
  if R ≠ T.none then do
    let (L2, R2) ← split R key true
    if L2 = T.none then .error .keyNotInTree
    else merge L R2
  else merge L R

/-- `Node._compress_tree_for(key)`: the compressed tree from the root to the
node holding `key`; nodes on the search path stay regular, off-path children
are compressed, and the found node's children are both compressed. -/
def compress_tree_for (sha : String → Int) : T → Int → Except Err T
  | .none, _ => .error .keyNotInTree
  | .comp _ _ _ _, _ => .error .attributeError
  | .node k p l r, key =>
      if k = key then
        pure (.node k p (compressOpt sha l) (compressOpt sha r))
      else if key > k then
        if r = T.none then .error .keyNotInTree
        else do
          let right ← compress_tree_for sha r key
          pure (.node k p (compressOpt sha l) right)
      else
        if l = T.none then .error .keyNotInTree
        else do
          let left ← compress_tree_for sha l key
          pure (.node k p left (compressOpt sha r))

/-- `Node.prove_inclusion(key)`: the compressed tree for `key`, with the
source's sanity `assert` that the Merkle root is unchanged. -/
def prove_inclusion (sha : String → Int) (t : T) (key : Int) : Except Err T := do
  let proof ← compress_tree_for sha t key
  if merkleRoot t = merkleRoot proof then pure proof else .error .assertionFailed

/-- `Node.verify_inclusions(keys, proof)`: recompute and compare the Merkle
root, then require every key to appear among the proof's collected keys. -/
def verify_inclusions (t : T) (keys : List Int) (proof : T) : Except Err Bool :=
  if merkleRoot t ≠ merkleRoot proof then .error .merkleRootMismatch
  else if keys.all (fun k => k ∈ collect_keys proof) then pure true
  else .error .invalidProof

/-- `Node.prove_exclusion(key)`: search for `key`; the path must end at
`None` (else *KeyInTree*); return the inclusion proof for the key of the
last node on the path (`path[-2]`). -/
def prove_exclusion (sha : String → Int) (t : T) (key : Int) : Except Err T := do
  let path ← find_path t key
  match path.reverse with
  | [] => .error .indexError
  | lastE :: rest =>
      if lastE ≠ T.none then .error .keyInTree
      else
        match rest with
        | [] => .error .indexError
        | second :: _ =>
            match second with
            | .none => .error .attributeError
            | .comp k _ _ _ => prove_inclusion sha t k
            | .node k _ _ _ => prove_inclusion sha t k

/-- One verification step of `verify_exclusions`: search the proof for the
key; touching a compressed node during the search is *InvalidProof*, finding
the key is *KeyInTree*. -/
def verify_exclusion_step (proof : T) (k : Int) : Except Err Unit :=
  match find proof k with
  | .error .touchedCompressedNode => .error .invalidProof
  | .error e => .error e
  | .ok (Option.some _) => .error .keyInTree
  | .ok Option.none => pure ()

/-- `Node.verify_exclusions(keys, proof)`: compare Merkle roots, then check
that searching each key in the proof reaches `None` without touching a
compressed node. -/
def verify_exclusions (t : T) (keys : List Int) (proof : T) : Except Err Bool :=
  if merkleRoot t ≠ merkleRoot proof then .error .merkleRootMismatch
  else do
    let _ ← keys.mapM (verify_exclusion_step proof)
    pure true

/-- `join_two_proofs(a, b)`: the most-revealing overlay of two proofs of the
same tree; recurse only when both positions are regular nodes, otherwise
keep the more informative variant (`Node` over `CompressedNode` over
`None`). -/
def join_two_proofs : T → T → T
  | .node k p l r, .node _ _ l2 r2 =>
      .node k p (join_two_proofs l l2) (join_two_proofs r r2)
  | .node k p l r, _ => .node k p l r
  | _, .node k p l r => .node k p l r
  | .comp k p lh rh, _ => .comp k p lh rh
  | .none, b => b

/-- `join_proofs(proofs)`: all proofs must share one Merkle root (`assert`),
then fold `join_two_proofs` left-to-right; finally `assert` the joined proof
still has that root. -/
def join_proofs (proofs : List T) : Except Err T :=
  match proofs with
  | [] => .error .assertionFailed
  | p :: rest =>
      if rest.all (fun q => merkleRoot q = merkleRoot p) then
        let joined := rest.foldl join_two_proofs p
        if merkleRoot joined = merkleRoot p then pure joined
        else .error .assertionFailed
      else .error .assertionFailed

/-- `is_treap`'s inner `verify_heap`: returns the root priority; a
compressed node acts as a leaf contributing its priority; an absent child
contributes `-1`; asserts the parent priority strictly dominates. -/
def verify_heap : T → Except Err Int
  | .none => .error .attributeError
  | .comp _ p _ _ => pure p
  | .node _ p l r => do
      let ml ← (if l = T.none then pure (-1 : Int) else verify_heap l)
      let mr ← (if r = T.none then pure (-1 : Int) else verify_heap r)
      if p > ml ∧ p > mr then pure p else .error .assertionFailed

/-- `is_treap`'s inner `verify_binary_tree`: compressed nodes are leaves;
asserts the parent/child key order on every edge. -/
def verify_binary_tree : T → Except Err Unit
  | .none => .error .attributeError
  | .comp _ _ _ _ => pure ()
  | .node k _ l r => do
      match l with
      | .none => pure ()
      | .comp kl _ _ _ =>
          if k > kl then pure () else .error .assertionFailed
      | .node kl pl ll rl =>
          if k > kl then verify_binary_tree (.node kl pl ll rl)
          else .error .assertionFailed
      match r with
      | .none => pure ()
      | .comp kr _ _ _ =>
          if k < kr then pure () else .error .assertionFailed
      | .node kr pr lr rr =>
          if k < kr then verify_binary_tree (.node kr pr lr rr)
          else .error .assertionFailed

/-- `is_treap(root)`: run both checkers; on success return `True`. -/
def is_treap (t : T) : Except Err Bool := do
  let _ ← verify_heap t
  let _ ← verify_binary_tree t
  pure true

/-- `insert_proof(t, key)`: search for `key` (must end at `None`, else
*KeyInTree*), then return the exclusion proof for `path[-2].key + 1`, with
the sanity `assert` on the Merkle root. -/
def insert_proof (sha : String → Int) (t : T) (key : Int) : Except Err T := do
  let path ← find_path t key
  match path.reverse with
  | [] => .error .indexError
  | lastE :: rest =>
      if lastE ≠ T.none then .error .keyInTree
      else
        match rest with
        | [] => .error .indexError
        | second :: _ =>
            match second with
            | .none => .error .attributeError
            | .comp k _ _ _ => do
                let proof ← prove_exclusion sha t (k + 1)
                if merkleRoot t = merkleRoot proof then pure proof
                else .error .assertionFailed
            | .node k _ _ _ => do
                let proof ← prove_exclusion sha t (k + 1)
                if merkleRoot t = merkleRoot proof then pure proof
                else .error .assertionFailed

/-- `remove_proof(t, key)`: search for `key` (must end at a node, else
*KeyNotInTree*), then join the exclusion proofs for the found key ± 1, with
the sanity `assert` on the Merkle root. -/
def remove_proof (sha : String → Int) (t : T) (key : Int) : Except Err T := do
  let path ← find_path t key
  match path.reverse with
  | [] => .error .indexError
  | lastE :: _ =>
      match lastE with
      | .none => .error .keyNotInTree
      | .comp k _ _ _ => do
          let p1 ← prove_exclusion sha t (k + 1)
          let p2 ← prove_exclusion sha t (k - 1)
          let proof ← join_proofs [p1, p2]
          if merkleRoot t = merkleRoot proof then pure proof
          else .error .assertionFailed
      | .node k _ _ _ => do
          let p1 ← prove_exclusion sha t (k + 1)
          let p2 ← prove_exclusion sha t (k - 1)
          let proof ← join_proofs [p1, p2]
          if merkleRoot t = merkleRoot proof then pure proof
          else .error .assertionFailed

/-- `build_treap(elements)`: start from `None` and insert `to_key(el)` for
each element in order. -/
def build_treap (sha : String → Int) (els : List PyVal) : Except Err T :=
  els.foldlM (fun t el => insert sha t (to_key sha el)) T.none

/-- `Node.insert_many(keys, prove=True)`: collect an insert proof for each
key against the original tree, join them, then insert every key in order;
the result is the new root and the joined proof. -/
def node_insert_many (sha : String → Int) (t : T) (keys : List Int) :
    Except Err (T × T) := do
  let proofs ← keys.mapM (fun k => insert_proof sha t k)
  let proof ← join_proofs proofs
  let res ← keys.foldlM (fun cur k => insert sha cur k) t
  pure (res, proof)

/-- `Node.remove_many(keys, prove=True)`: as `insert_many` but with remove
proofs and removals. -/
def node_remove_many (sha : String → Int) (t : T) (keys : List Int) :
    Except Err (T × T) := do
  let proofs ← keys.mapM (fun k => remove_proof sha t k)
  let proof ← join_proofs proofs
  let res ← keys.foldlM (fun cur k => remove cur k) t
  pure (res, proof)

/-- `Treaccp.to_acc()`: fails with *NoRoot* on an empty tree, otherwise the
accumulator is just the root's Merkle root. -/
def to_acc (root : T) : Except Err Digest :=
  match root with
  | .none => .error .noRoot
  | t => pure (merkleRoot t)

/-- `Acc.insert_many(els, proof)`: recompute the proof's Merkle root (an
`AttributeError` if the proof is `None`), compare with the digest, replay
the inserts on the proof tree, and build the new accumulator from the
result (`Acc(None)` would again be an `AttributeError`). -/
def acc_insert_many (sha : String → Int) (digest : Digest) (els : List PyVal)
    (proof : T) : Except Err (Digest × T) := do
  if proof = T.none then .error .attributeError
  else if digest ≠ merkleRoot proof then .error .merkleRootMismatch
  else do
    let ct ← els.foldlM (fun cur el => insert sha cur (to_key sha el)) proof
    match ct with
    | .none => .error .attributeError
    | res => pure (merkleRoot res, res)

/-- `Acc.remove_many(els, proof)`: as `insert_many` but replaying removes. -/
def acc_remove_many (sha : String → Int) (digest : Digest) (els : List PyVal)
    (proof : T) : Except Err (Digest × T) := do
  if proof = T.none then .error .attributeError
  else if digest ≠ merkleRoot proof then .error .merkleRootMismatch
  else do
    let ct ← els.foldlM (fun cur el => remove cur (to_key sha el)) proof
    match ct with
    | .none => .error .attributeError
    | res => pure (merkleRoot res, res)

/-- `Acc.warp(proof, added, removed, new_proof)`: the one-shot state
transition.  Every `assert` in the source is an `AssertionError`; only the
digest comparison raises *MerkleRootMismatch*.  Collecting keys on a `None`
proof would be an `AttributeError`. -/
def warp (sha : String → Int) (digest : Digest) (proof : T)
    (added removed : Finset PyVal) (new_proof : T) : Except Err (Digest × T) :=
  if added ∩ removed ≠ ∅ then .error .assertionFailed
  else if proof = T.none then .error .attributeError
  else if digest ≠ merkleRoot proof then .error .merkleRootMismatch
  else if new_proof = T.none then .error .attributeError
  else
    let extOld := collect_keys_ext proof
    let old_keys := extOld.image (fun x => (x.1, x.2.1))
    let old_C_keys := extOld.filter (fun x => x.2.1 = Tag.C)
    let old_N_keys := (extOld.filter (fun x => x.2.1 = Tag.N)).image
      (fun x => (x.1, x.2.1))
    let extNew := collect_keys_ext new_proof
    let new_keys := extNew.image (fun x => (x.1, x.2.1))
    let new_C_keys := extNew.filter (fun x => x.2.1 = Tag.C)
    let new_N_keys := (extNew.filter (fun x => x.2.1 = Tag.N)).image
      (fun x => (x.1, x.2.1))
    let added_keys := added.image (fun el => (to_key sha el, Tag.N))
    let removed_keys := removed.image (fun el => (to_key sha el, Tag.N))
    if removed_keys ∩ old_N_keys ≠ removed_keys then .error .assertionFailed
    else if added_keys ∩ old_keys ≠ ∅ then .error .assertionFailed
    else if new_N_keys \ old_N_keys ≠ added_keys then .error .assertionFailed
    else if (old_keys ∪ added_keys) \ removed_keys ≠ new_keys then
      .error .assertionFailed
    else
      match is_treap new_proof with
      | .error e => .error e
      | .ok _ =>
          if old_C_keys ≠ new_C_keys then .error .assertionFailed
          else pure (merkleRoot new_proof, new_proof)

/-- `Treaccp.insert_many(els)` (with `prove=True`): the façade maps elements
to keys and calls `self.root.insert_many`; on an empty (or compressed) root
that method call is an `AttributeError`. -/
def treaccp_insert_many (sha : String → Int) (root : T) (els : List PyVal) :
    Except Err (T × T) :=
  match root with
  | .node k p l r => node_insert_many sha (.node k p l r) (els.map (to_key sha))
  | _ => .error .attributeError

/-- `Treaccp.remove_many(els)` (with `prove=True`), as for inserts. -/
def treaccp_remove_many (sha : String → Int) (root : T) (els : List PyVal) :
    Except Err (T × T) :=
  match root with
  | .node k p l r => node_remove_many sha (.node k p l r) (els.map (to_key sha))
  | _ => .error .attributeError

/-- The key of the last node touched by the BST search for `k` when that
search ends at an absent child (the key of `find_path(t, k)[-2]`); `none`
when the search finds `k` or the tree is empty. -/
def lastT : T → Int → Option Int
  | .none, _ => Option.none
  | .comp _ _ _ _, _ => Option.none
  | .node kt _ l r, k =>
      if kt = k then Option.none
      else if k ≥ kt then
        (if r = T.none then Option.some kt else lastT r k)
      else
        (if l = T.none then Option.some kt else lastT l k)

/-- Whether a value is a regular `Node` object. -/
def isNode : T → Bool
  | .node _ _ _ _ => true
  | _ => false

/-- Well-formed full trees: the shape every root reachable through the
public tree API has.  No compressed nodes, every stored priority is the one
derived from the key, strict BST order on keys, and the root's priority
strictly dominates the priority of every other key in the tree. -/
inductive WF (sha : String → Int) : T → Prop where
  | none : WF sha T.none
  | node {k : Int} {l r : T} :
      WF sha l → WF sha r →
      (∀ x ∈ collect_keys l, x < k) →
      (∀ x ∈ collect_keys r, k < x) →
      (∀ x ∈ collect_keys l ∪ collect_keys r,
        to_priority sha x < to_priority sha k) →
      WF sha (T.node k (to_priority sha k) l r)

/-- Executable well-formedness checker, used to discharge `WF` hypotheses on
concrete trees in witnesses. -/
def wfb (sha : String → Int) : T → Bool
  | .none => true
  | .comp _ _ _ _ => false
  | .node k p l r =>
      p = to_priority sha k && wfb sha l && wfb sha r &&
      decide (∀ x ∈ collect_keys l, x < k) &&
      decide (∀ x ∈ collect_keys r, k < x) &&
      decide (∀ x ∈ collect_keys l ∪ collect_keys r,
        to_priority sha x < to_priority sha k)

/-- Derived-priority injectivity on a finite key set: the idealisation of
the hash's collision resistance that the treap-uniqueness argument needs. -/
def PrioInj (sha : String → Int) (s : Finset Int) : Prop :=
  ∀ a ∈ s, ∀ b ∈ s, to_priority sha a = to_priority sha b → a = b

/-- The relation "proof `p` is a compression of the full tree `t`":
positions agree on keys and priorities, and a subtree may be replaced by a
`CompressedNode` carrying the derived priority and the children's digests.
Every compressed-subtree proof the library produces for `t` covers `t`. -/
inductive Covers (sha : String → Int) : T → T → Prop where
  | none : Covers sha T.none T.none
  | comp {k p : Int} {l r : T} :
      p = to_priority sha k →
      Covers sha (T.comp k (to_priority sha k) (merkleRoot l) (merkleRoot r))
        (T.node k p l r)
  | node {k p : Int} {l r l2 r2 : T} :
      Covers sha l2 l → Covers sha r2 r →
      Covers sha (T.node k p l2 r2) (T.node k p l r)

/-- A concrete stand-in for `sha` in witnesses: reads the string as a
base-256 number over the character codes (injective on the short ASCII
strings the witnesses use, and always nonnegative). -/
def toySha (s : String) : Int :=
  ((s.data.foldl (fun a c => a * 256 + c.toNat % 256) 1 : Nat) : Int)

/-- The key stored at the root of a value (`t.key`); `0` for an absent
tree (where the Python attribute access would fail). -/
def rootKey : T → Int
  | .none => 0
  | .comp k _ _ _ => k
  | .node k _ _ _ => k

instance {ε α : Type} [DecidableEq ε] [DecidableEq α] :
    DecidableEq (Except ε α) := fun x y =>
  match x, y with
  | .ok a, .ok b =>
      if h : a = b then .isTrue (by rw [h])
      else .isFalse (by intro hc; cases hc; exact h rfl)
  | .ok _, .error _ => .isFalse (by intro hc; cases hc)
  | .error _, .ok _ => .isFalse (by intro hc; cases hc)
  | .error e, .error f =>
      if h : e = f then .isTrue (by rw [h])
      else .isFalse (by intro hc; cases hc; exact h rfl)

instance (sha : String → Int) (s : Finset Int) : Decidable (PrioInj sha s) :=
  decidable_of_iff
    (∀ a ∈ s, ∀ b ∈ s, to_priority sha a = to_priority sha b → a = b) Iff.rfl

/-- Concrete fixture: the well-formed singleton tree over `to_key toySha
(PyVal.int 1) = 305`. -/
def w1 : T := T.node 305 (to_priority toySha 305) T.none T.none

/-- Concrete fixture: the well-formed singleton tree over the key 4. -/
def w4 : T := T.node 4 (to_priority toySha 4) T.none T.none

/-- Concrete fixture: the well-formed `toySha` treap over the keys
{305, 306} (root 306, left child 305). -/
def w12 : T := T.node 306 (to_priority toySha 306) w1 T.none

/-- Concrete fixture: the well-formed `toySha` treap over the keys
{305, 321} (root 321, left child 305). -/
def wAB : T := T.node 321 (to_priority toySha 321) w1 T.none

/-- Concrete fixture: the fully compressed proof of `w1` (its root as a
`CompressedNode`). -/
def w1c : T := T.comp 305 (to_priority toySha 305) Digest.hnone Digest.hnone

/-! ### Basic lemmas about digests, compression and well-formedness -/

theorem covers_merkleRoot {sha : String → Int} {p t : T} (h : Covers sha p t) :
    merkleRoot p = merkleRoot t := by
  induction h with
  | none => rfl
  | comp hp => simp [merkleRoot, hp]
  | node _ _ ihl ihr => simp [merkleRoot, ihl, ihr]

theorem covers_collect {sha : String → Int} {p t : T} (h : Covers sha p t) :
    collect_keys p ⊆ collect_keys t := by
  induction h with
  | none => simp [collect_keys]
  | comp hp =>
      intro x hx
      simp [collect_keys] at hx ⊢
      tauto
  | node _ _ ihl ihr =>
      intro x hx
      have ihl2 : ∀ y, y ∈ collect_keys _ → y ∈ collect_keys _ := fun y hy => ihl hy
      have ihr2 : ∀ y, y ∈ collect_keys _ → y ∈ collect_keys _ := fun y hy => ihr hy
      simp [collect_keys] at hx ⊢
      tauto

theorem covers_refl_of_wf {sha : String → Int} {t : T} (h : WF sha t) :
    Covers sha t t := by
  induction h with
  | none => exact Covers.none
  | node _ _ _ _ _ ihl ihr => exact Covers.node ihl ihr

theorem covers_none_inv {sha : String → Int} {p : T}
    (h : Covers sha p T.none) : p = T.none := by
  cases h; rfl

theorem covers_node_ne_none {sha : String → Int} {p : T} {k pr : Int} {l r : T}
    (h : Covers sha p (T.node k pr l r)) : p ≠ T.none := by
  cases h <;> simp

theorem wf_root_prior {sha : String → Int} {k p : Int} {l r : T}
    (h : WF sha (T.node k p l r)) : p = to_priority sha k := by
  cases h; rfl

theorem wf_left {sha : String → Int} {k p : Int} {l r : T}
    (h : WF sha (T.node k p l r)) : WF sha l := by
  cases h; assumption

theorem wf_right {sha : String → Int} {k p : Int} {l r : T}
    (h : WF sha (T.node k p l r)) : WF sha r := by
  cases h; assumption

theorem wf_keys_left {sha : String → Int} {k p : Int} {l r : T}
    (h : WF sha (T.node k p l r)) : ∀ x ∈ collect_keys l, x < k := by
  cases h; assumption

theorem wf_keys_right {sha : String → Int} {k p : Int} {l r : T}
    (h : WF sha (T.node k p l r)) : ∀ x ∈ collect_keys r, k < x := by
  cases h; assumption

theorem wf_prio_children {sha : String → Int} {k p : Int} {l r : T}
    (h : WF sha (T.node k p l r)) :
    ∀ x ∈ collect_keys l ∪ collect_keys r,
      to_priority sha x < to_priority sha k := by
  cases h; assumption

theorem wf_keys_empty {sha : String → Int} {t : T} (h : WF sha t)
    (hk : collect_keys t = ∅) : t = T.none := by
  cases h with
  | none => rfl
  | @node k l r _ _ _ _ _ =>
      exfalso
      have hmem : k ∈ collect_keys (T.node k (to_priority sha k) l r) := by
        simp [collect_keys]
      rw [hk] at hmem
      simp at hmem

theorem wf_root_mem {sha : String → Int} {k p : Int} {l r : T}
    (_ : WF sha (T.node k p l r)) : k ∈ collect_keys (T.node k p l r) := by
  simp [collect_keys]

theorem mem_node_keys {k p : Int} {l r : T} (x : Int) :
    x ∈ collect_keys (T.node k p l r) ↔
      x ∈ collect_keys l ∨ x = k ∨ x ∈ collect_keys r := by
  simp [collect_keys, or_assoc]

theorem wf_prio_root {sha : String → Int} {k p : Int} {l r : T}
    (h : WF sha (T.node k p l r)) :
    ∀ x ∈ collect_keys (T.node k p l r), x ≠ k →
      to_priority sha x < to_priority sha k := by
  intro x hx hne
  have hp := wf_prio_children h
  rw [mem_node_keys x] at hx
  rcases hx with hx | hx | hx
  · exact hp x (Finset.mem_union.mpr (Or.inl hx))
  · exact absurd hx hne
  · exact hp x (Finset.mem_union.mpr (Or.inr hx))

/-! ### Specification of `split` -/

/-- The predicate deciding which side of `split(·, key, eqL)` a key goes to:
keys satisfying it end up in the left output. -/
def splitLeftP (key : Int) (eqL : Bool) (x : Int) : Prop :=
  if eqL then x ≤ key else x < key

instance (key : Int) (eqL : Bool) : DecidablePred (splitLeftP key eqL) :=
  fun _ => by unfold splitLeftP; infer_instance

theorem splitLeftP_iff (key : Int) (eqL : Bool) (x : Int) :
    (x < key ∨ (eqL = true ∧ x = key)) ↔ splitLeftP key eqL x := by
  cases eqL
  all_goals simp [splitLeftP]
  all_goals omega

theorem splitLeftP_mono {key : Int} {eqL : Bool} {x y : Int} (hxy : x ≤ y)
    (h : splitLeftP key eqL y) : splitLeftP key eqL x := by
  cases eqL
  all_goals simp [splitLeftP] at h ⊢
  all_goals omega

theorem split_spec {sha : String → Int} {t : T} (hw : WF sha t) :
    ∀ (key : Int) (eqL : Bool), ∃ L R,
      split t key eqL = .ok (L, R) ∧ WF sha L ∧ WF sha R ∧
      (∀ x, x ∈ collect_keys L ↔ x ∈ collect_keys t ∧ splitLeftP key eqL x) ∧
      (∀ x, x ∈ collect_keys R ↔ x ∈ collect_keys t ∧ ¬ splitLeftP key eqL x) := by
  induction hw with
  | none =>
      intro key eqL
      exact ⟨T.none, T.none, rfl, WF.none, WF.none,
        by simp [collect_keys], by simp [collect_keys]⟩
  | @node k l r hl hr hbl hbr hp ihl ihr =>
      intro key eqL
      by_cases hc : k < key ∨ (eqL = true ∧ k = key)
      · obtain ⟨L1, R1, hs, hwL1, hwR1, hmL1, hmR1⟩ := ihr key eqL
        have hPk : splitLeftP key eqL k := (splitLeftP_iff key eqL k).mp hc
        have hwL : WF sha (T.node k (to_priority sha k) l L1) := by
          refine WF.node hl hwL1 hbl ?_ ?_
          · intro x hx
            exact hbr x (((hmL1 x).mp hx).1)
          · intro x hx
            refine hp x ?_
            rcases Finset.mem_union.mp hx with hx | hx
            · exact Finset.mem_union.mpr (Or.inl hx)
            · exact Finset.mem_union.mpr (Or.inr (((hmL1 x).mp hx).1))
        refine ⟨T.node k (to_priority sha k) l L1, R1, ?_, hwL, hwR1, ?_, ?_⟩
        · simp only [split, hc, if_true, hs]
          rfl
        · intro x
          rw [mem_node_keys x, hmL1 x, mem_node_keys x]
          constructor
          · rintro (hx | hx | ⟨hx, hPx⟩)
            · exact ⟨Or.inl hx, splitLeftP_mono (le_of_lt (hbl x hx)) hPk⟩
            · exact ⟨Or.inr (Or.inl hx), hx ▸ hPk⟩
            · exact ⟨Or.inr (Or.inr hx), hPx⟩
          · rintro ⟨hx | hx | hx, hPx⟩
            · exact Or.inl hx
            · exact Or.inr (Or.inl hx)
            · exact Or.inr (Or.inr ⟨hx, hPx⟩)
        · intro x
          rw [hmR1 x, mem_node_keys x]
          constructor
          · rintro ⟨hx, hPx⟩
            exact ⟨Or.inr (Or.inr hx), hPx⟩
          · rintro ⟨hx | hx | hx, hPx⟩
            · exact absurd (splitLeftP_mono (le_of_lt (hbl x hx)) hPk) hPx
            · exact absurd (hx ▸ hPk) hPx
            · exact ⟨hx, hPx⟩
      · obtain ⟨L1, R1, hs, hwL1, hwR1, hmL1, hmR1⟩ := ihl key eqL
        have hPk : ¬ splitLeftP key eqL k := fun h =>
          hc ((splitLeftP_iff key eqL k).mpr h)
        have hwR : WF sha (T.node k (to_priority sha k) R1 r) := by
          refine WF.node hwR1 hr ?_ hbr ?_
          · intro x hx
            exact hbl x (((hmR1 x).mp hx).1)
          · intro x hx
            refine hp x ?_
            rcases Finset.mem_union.mp hx with hx | hx
            · exact Finset.mem_union.mpr (Or.inl (((hmR1 x).mp hx).1))
            · exact Finset.mem_union.mpr (Or.inr hx)
        refine ⟨L1, T.node k (to_priority sha k) R1 r, ?_, hwL1, hwR, ?_, ?_⟩
        · simp only [split, hc, if_false, hs]
          rfl
        · intro x
          rw [hmL1 x, mem_node_keys x]
          constructor
          · rintro ⟨hx, hPx⟩
            exact ⟨Or.inl hx, hPx⟩
          · rintro ⟨hx | hx | hx, hPx⟩
            · exact ⟨hx, hPx⟩
            · exact absurd (hx ▸ hPx) hPk
            · have hcontra : splitLeftP key eqL k :=
                splitLeftP_mono (le_of_lt (hbr x hx)) hPx
              exact absurd hcontra hPk
        · intro x
          rw [mem_node_keys x, hmR1 x, mem_node_keys x]
          constructor
          · rintro (⟨hx, hPx⟩ | hx | hx)
            · exact ⟨Or.inl hx, hPx⟩
            · exact ⟨Or.inr (Or.inl hx), hx ▸ hPk⟩
            · refine ⟨Or.inr (Or.inr hx), fun hPx => ?_⟩
              exact hPk (splitLeftP_mono (le_of_lt (hbr x hx)) hPx)
          · rintro ⟨hx | hx | hx, hPx⟩
            · exact Or.inl ⟨hx, hPx⟩
            · exact Or.inr (Or.inl hx)
            · exact Or.inr (Or.inr hx)

/-! ### Specification of `merge` and `find` -/

theorem wf_not_comp {sha : String → Int} {k p : Int} {lh rh : Digest} :
    ¬ WF sha (T.comp k p lh rh) := by
  intro h
  cases h

theorem wf_prio_le_root {sha : String → Int} {k p : Int} {l r : T}
    (h : WF sha (T.node k p l r)) :
    ∀ x ∈ collect_keys (T.node k p l r),
      to_priority sha x ≤ to_priority sha k := by
  intro x hx
  by_cases hxk : x = k
  · simp [hxk]
  · exact le_of_lt (wf_prio_root h x hx hxk)

theorem prioinj_mono {sha : String → Int} {s s2 : Finset Int} (hsub : s2 ⊆ s)
    (h : PrioInj sha s) : PrioInj sha s2 :=
  fun a ha b hb => h a (hsub ha) b (hsub hb)

theorem merge_none_none : merge T.none T.none = .ok T.none := by
  simp [merge]
  rfl

theorem merge_none_node (k p : Int) (l r : T) :
    merge T.none (T.node k p l r) = .ok (T.node k p l r) := by
  simp [merge]
  rfl

theorem merge_node_none (k p : Int) (l r : T) :
    merge (T.node k p l r) T.none = .ok (T.node k p l r) := by
  simp [merge]
  rfl

theorem merge_gt {k1 p1 k2 p2 : Int} {l1 r1 l2 r2 m : T} (h : p1 > p2)
    (hm : merge r1 (T.node k2 p2 l2 r2) = .ok m) :
    merge (T.node k1 p1 l1 r1) (T.node k2 p2 l2 r2) = .ok (T.node k1 p1 l1 m) := by
  rw [merge, if_pos h, hm]
  rfl

theorem merge_ngt {k1 p1 k2 p2 : Int} {l1 r1 l2 r2 m : T} (h : ¬ p1 > p2)
    (hm : merge (T.node k1 p1 l1 r1) l2 = .ok m) :
    merge (T.node k1 p1 l1 r1) (T.node k2 p2 l2 r2) = .ok (T.node k2 p2 m r2) := by
  rw [merge, if_neg h, hm]
  rfl

theorem merge_spec {sha : String → Int} : ∀ a b : T, WF sha a → WF sha b →
    (∀ x ∈ collect_keys a, ∀ y ∈ collect_keys b, x < y) →
    PrioInj sha (collect_keys a ∪ collect_keys b) →
    ∃ m, merge a b = .ok m ∧ WF sha m ∧
      (∀ x, x ∈ collect_keys m ↔ x ∈ collect_keys a ∨ x ∈ collect_keys b) := by
  intro a b
  induction a, b using merge.induct with
  | case1 kc pc lh rh x =>
      intro hwa
      exact absurd hwa wf_not_comp
  | case2 x kc pc lh rh _ =>
      intro _ hwb
      exact absurd hwb wf_not_comp
  | case3 b hb =>
      intro _ hwb _ _
      refine ⟨b, ?_, hwb, by simp [collect_keys]⟩
      cases b with
      | none => exact merge_none_none
      | comp kc pc lh rh => exact absurd hwb wf_not_comp
      | node k p l r => exact merge_none_node k p l r
  | case4 a ha hne =>
      intro hwa _ _ _
      refine ⟨a, ?_, hwa, by simp [collect_keys]⟩
      cases a with
      | none => exact merge_none_none
      | comp kc pc lh rh => exact absurd hwa wf_not_comp
      | node k p l r => exact merge_node_none k p l r
  | case5 k1 p1 l1 r1 k2 p2 l2 r2 hgt ih =>
      intro hwa hwb hsep hinj
      have hsep2 : ∀ x ∈ collect_keys r1, ∀ y ∈ collect_keys (T.node k2 p2 l2 r2),
          x < y := fun x hx y hy =>
        hsep x (by rw [mem_node_keys x]; exact Or.inr (Or.inr hx)) y hy
      have hinj2 : PrioInj sha (collect_keys r1 ∪ collect_keys (T.node k2 p2 l2 r2)) := by
        refine prioinj_mono ?_ hinj
        intro x hx
        rcases Finset.mem_union.mp hx with hx | hx
        · exact Finset.mem_union.mpr
            (Or.inl (by rw [mem_node_keys x]; exact Or.inr (Or.inr hx)))
        · exact Finset.mem_union.mpr (Or.inr hx)
      obtain ⟨m, hm, hwm, hmem⟩ := ih (wf_right hwa) hwb hsep2 hinj2
      have hp1 : p1 = to_priority sha k1 := wf_root_prior hwa
      have hk1top : ∀ x ∈ collect_keys (T.node k2 p2 l2 r2),
          to_priority sha x < to_priority sha k1 := by
        intro x hx
        have hx2 : to_priority sha x ≤ to_priority sha k2 := wf_prio_le_root hwb x hx
        have hp2 : p2 = to_priority sha k2 := wf_root_prior hwb
        calc to_priority sha x ≤ to_priority sha k2 := hx2
          _ < to_priority sha k1 := by rw [← hp1, ← hp2]; exact hgt
      have hwres : WF sha (T.node k1 (to_priority sha k1) l1 m) := by
        refine WF.node (wf_left hwa) hwm (wf_keys_left hwa) ?_ ?_
        · intro x hx
          rcases (hmem x).mp hx with hx | hx
          · exact wf_keys_right hwa x hx
          · exact hsep k1 (by rw [mem_node_keys k1]; exact Or.inr (Or.inl rfl)) x hx
        · intro x hx
          rcases Finset.mem_union.mp hx with hx | hx
          · exact wf_prio_children hwa x (Finset.mem_union.mpr (Or.inl hx))
          · rcases (hmem x).mp hx with hx | hx
            · exact wf_prio_children hwa x (Finset.mem_union.mpr (Or.inr hx))
            · exact hk1top x hx
      refine ⟨T.node k1 (to_priority sha k1) l1 m, ?_, hwres, ?_⟩
      · rw [← hp1]
        exact merge_gt hgt hm
      · intro x
        simp only [mem_node_keys, hmem x]
        itauto
  | case6 k1 p1 l1 r1 k2 p2 l2 r2 hle ih =>
      intro hwa hwb hsep hinj
      have hsep2 : ∀ x ∈ collect_keys (T.node k1 p1 l1 r1), ∀ y ∈ collect_keys l2,
          x < y := fun x hx y hy =>
        hsep x hx y (by rw [mem_node_keys y]; exact Or.inl hy)
      have hinj2 : PrioInj sha (collect_keys (T.node k1 p1 l1 r1) ∪ collect_keys l2) := by
        refine prioinj_mono ?_ hinj
        intro x hx
        rcases Finset.mem_union.mp hx with hx | hx
        · exact Finset.mem_union.mpr (Or.inl hx)
        · exact Finset.mem_union.mpr
            (Or.inr (by rw [mem_node_keys x]; exact Or.inl hx))
      obtain ⟨m, hm, hwm, hmem⟩ := ih hwa (wf_left hwb) hsep2 hinj2
      have hp2 : p2 = to_priority sha k2 := wf_root_prior hwb
      have hp1 : p1 = to_priority sha k1 := wf_root_prior hwa
      have hk2top : ∀ x ∈ collect_keys (T.node k1 p1 l1 r1),
          to_priority sha x < to_priority sha k2 := by
        intro x hx
        have hx1 : to_priority sha x ≤ to_priority sha k1 := wf_prio_le_root hwa x hx
        have hlt : to_priority sha x ≤ to_priority sha k2 := by
          refine le_trans hx1 ?_
          rw [← hp1, ← hp2]
          omega
        rcases lt_or_eq_of_le hlt with hlt | heq
        · exact hlt
        · exfalso
          have hxk2 : x = k2 := by
            refine hinj x (Finset.mem_union.mpr (Or.inl hx)) k2 ?_ heq
            exact Finset.mem_union.mpr
              (Or.inr (by rw [mem_node_keys k2]; exact Or.inr (Or.inl rfl)))
          have : x < k2 := hsep x hx k2
            (by rw [mem_node_keys k2]; exact Or.inr (Or.inl rfl))
          omega
      have hwres : WF sha (T.node k2 (to_priority sha k2) m r2) := by
        refine WF.node hwm (wf_right hwb) ?_ (wf_keys_right hwb) ?_
        · intro x hx
          rcases (hmem x).mp hx with hx | hx
          · exact hsep x hx k2 (by rw [mem_node_keys k2]; exact Or.inr (Or.inl rfl))
          · exact wf_keys_left hwb x hx
        · intro x hx
          rcases Finset.mem_union.mp hx with hx | hx
          · rcases (hmem x).mp hx with hx | hx
            · exact hk2top x hx
            · exact wf_prio_children hwb x (Finset.mem_union.mpr (Or.inl hx))
          · exact wf_prio_children hwb x (Finset.mem_union.mpr (Or.inr hx))
      refine ⟨T.node k2 (to_priority sha k2) m r2, ?_, hwres, ?_⟩
      · rw [← hp2]
        exact merge_ngt hle hm
      · intro x
        simp only [mem_node_keys, hmem x]
        itauto

theorem find_not_mem {sha : String → Int} {t : T} (hw : WF sha t) :
    ∀ k, k ∉ collect_keys t → find t k = .ok Option.none := by
  induction hw with
  | none => intro k _; rfl
  | @node kt l r hl hr hbl hbr hp ihl ihr =>
      intro k hk
      rw [mem_node_keys k] at hk
      push_neg at hk
      obtain ⟨hkl, hkk, hkr⟩ := hk
      rw [find]
      rw [if_neg (by omega : ¬ kt = k)]
      by_cases hge : k ≥ kt
      · rw [if_pos hge]
        exact ihr k hkr
      · rw [if_neg hge]
        exact ihl k hkl

theorem find_mem {sha : String → Int} {t : T} (hw : WF sha t) :
    ∀ k ∈ collect_keys t, ∃ nd, find t k = .ok (Option.some nd) := by
  induction hw with
  | none => intro k hk; simp [collect_keys] at hk
  | @node kt l r hl hr hbl hbr hp ihl ihr =>
      intro k hk
      rw [mem_node_keys k] at hk
      rw [find]
      by_cases hkk : kt = k
      · refine ⟨T.node kt (to_priority sha kt) l r, ?_⟩
        rw [if_pos hkk]
        rfl
      · rw [if_neg hkk]
        rcases hk with hk | hk | hk
        · have : k < kt := hbl k hk
          rw [if_neg (by omega : ¬ k ≥ kt)]
          exact ihl k hk
        · exact absurd hk.symm hkk
        · have : kt < k := hbr k hk
          rw [if_pos (by omega : k ≥ kt)]
          exact ihr k hk

/-! ### Specification of `insert` and `remove` on full trees -/

theorem splitLeftP_false (key x : Int) : splitLeftP key false x ↔ x < key := by
  simp [splitLeftP]

theorem splitLeftP_true (key x : Int) : splitLeftP key true x ↔ x ≤ key := by
  simp [splitLeftP]

@[simp] theorem except_ok_bind {α β : Type} (a : α) (f : α → Except Err β) :
    ((Except.ok a : Except Err α) >>= f) = f a := rfl

theorem insert_eq_ok {sha : String → Int} {t : T} {k : Int} {L R m res : T}
    (hs : split t k false = .ok (L, R)) (hfind : find R k = .ok Option.none)
    (hm : merge (T.node k (to_priority sha k) T.none T.none) R = .ok m)
    (hres : merge L m = .ok res) : insert sha t k = .ok res := by
  unfold insert
  rw [hs]
  simp only [except_ok_bind]
  rw [hfind]
  simp only [except_ok_bind]
  rw [hm]
  simp only [except_ok_bind]
  exact hres

theorem insert_eq_err {sha : String → Int} {t : T} {k : Int} {L R nd : T}
    (hs : split t k false = .ok (L, R))
    (hfind : find R k = .ok (Option.some nd)) :
    insert sha t k = .error .keyInTree := by
  unfold insert
  rw [hs]
  simp only [except_ok_bind]
  rw [hfind]
  simp only [except_ok_bind]

theorem remove_eq_ok {t : T} {k : Int} {L R L2 R2 res : T}
    (hs : split t k false = .ok (L, R)) (hRne : R ≠ T.none)
    (hs2 : split R k true = .ok (L2, R2)) (hL2 : L2 ≠ T.none)
    (hres : merge L R2 = .ok res) : remove t k = .ok res := by
  unfold remove
  rw [hs]
  simp only [except_ok_bind]
  rw [if_pos hRne, hs2]
  simp only [except_ok_bind]
  rw [if_neg hL2]
  exact hres

theorem remove_eq_err {t : T} {k : Int} {L R L2 R2 : T}
    (hs : split t k false = .ok (L, R)) (hRne : R ≠ T.none)
    (hs2 : split R k true = .ok (L2, R2)) (hL2 : L2 = T.none) :
    remove t k = .error .keyNotInTree := by
  unfold remove
  rw [hs]
  simp only [except_ok_bind]
  rw [if_pos hRne, hs2]
  simp only [except_ok_bind]
  rw [if_pos hL2]

theorem remove_eq_empty {t : T} {k : Int} {L m : T}
    (hs : split t k false = .ok (L, T.none)) (hm : merge L T.none = .ok m) :
    remove t k = .ok m := by
  unfold remove
  rw [hs]
  simp only [except_ok_bind]
  rw [if_neg (by simp : ¬ (T.none : T) ≠ T.none)]
  exact hm

theorem insert_spec {sha : String → Int} {t : T} (hw : WF sha t) {k : Int}
    (hk : k ∉ collect_keys t)
    (hinj : PrioInj sha (collect_keys t ∪ {k})) :
    ∃ t2, insert sha t k = .ok t2 ∧ WF sha t2 ∧
      collect_keys t2 = collect_keys t ∪ {k} := by
  obtain ⟨L, R, hs, hwL, hwR, hmL, hmR⟩ := split_spec hw k false
  have hsubL : collect_keys L ⊆ collect_keys t := fun x hx => ((hmL x).mp hx).1
  have hsubR : collect_keys R ⊆ collect_keys t := fun x hx => ((hmR x).mp hx).1
  have hfind : find R k = .ok Option.none :=
    find_not_mem hwR k (fun hkR => hk (hsubR hkR))
  have hnew : WF sha (T.node k (to_priority sha k) T.none T.none) := by
    refine WF.node WF.none WF.none ?_ ?_ ?_
    all_goals intro x hx
    all_goals simp [collect_keys] at hx
  have hRgt : ∀ y ∈ collect_keys R, k < y := by
    intro y hy
    obtain ⟨hyt, hyP⟩ := (hmR y).mp hy
    rw [splitLeftP_false] at hyP
    have hyk : y ≠ k := fun he => hk (he ▸ hyt)
    omega
  have hLlt : ∀ y ∈ collect_keys L, y < k := by
    intro y hy
    have hyP := ((hmL y).mp hy).2
    rwa [splitLeftP_false] at hyP
  have hsubIns : ∀ s : Finset Int, (∀ x ∈ s, x ∈ collect_keys t ∨ x = k) →
      s ⊆ collect_keys t ∪ {k} := by
    intro s hs2 x hx
    rcases hs2 x hx with h | h
    · exact Finset.mem_union.mpr (Or.inl h)
    · exact Finset.mem_union.mpr (Or.inr (by simp [h]))
  obtain ⟨m, hm, hwm, hmemm⟩ := merge_spec
    (T.node k (to_priority sha k) T.none T.none) R hnew hwR
    (by
      intro x hx y hy
      rw [mem_node_keys x] at hx
      simp [collect_keys] at hx
      exact hx ▸ hRgt y hy)
    (by
      refine prioinj_mono ?_ hinj
      refine hsubIns _ ?_
      intro x hx
      rcases Finset.mem_union.mp hx with hx | hx
      · rw [mem_node_keys x] at hx
        simp [collect_keys] at hx
        exact Or.inr hx
      · exact Or.inl (hsubR hx))
  obtain ⟨res, hres, hwres, hmemres⟩ := merge_spec L m hwL hwm
    (by
      intro x hx y hy
      rcases (hmemm y).mp hy with hy | hy
      · rw [mem_node_keys y] at hy
        simp [collect_keys] at hy
        exact hy ▸ hLlt x hx
      · exact lt_trans (hLlt x hx) (hRgt y hy))
    (by
      refine prioinj_mono ?_ hinj
      refine hsubIns _ ?_
      intro x hx
      rcases Finset.mem_union.mp hx with hx | hx
      · exact Or.inl (hsubL hx)
      · rcases (hmemm x).mp hx with hx | hx
        · rw [mem_node_keys x] at hx
          simp [collect_keys] at hx
          exact Or.inr hx
        · exact Or.inl (hsubR hx))
  refine ⟨res, insert_eq_ok hs hfind hm hres, hwres, ?_⟩
  ext x
  rw [hmemres x, Finset.mem_union, Finset.mem_singleton]
  rw [hmemm x, mem_node_keys x]
  simp only [collect_keys, Finset.not_mem_empty]
  constructor
  · rintro (hx | (hx | hx | hx) | hx)
    · exact Or.inl (hsubL hx)
    · simp at hx
    · exact Or.inr hx
    · simp at hx
    · exact Or.inl (hsubR hx)
  · rintro (hx | hx)
    · by_cases hxk : x < k
      · exact Or.inl ((hmL x).mpr ⟨hx, (splitLeftP_false k x).mpr hxk⟩)
      · refine Or.inr (Or.inr ((hmR x).mpr ⟨hx, ?_⟩))
        rw [splitLeftP_false]
        omega
    · exact Or.inr (Or.inl (Or.inr (Or.inl hx)))

theorem insert_mem_error {sha : String → Int} {t : T} (hw : WF sha t) {k : Int}
    (hk : k ∈ collect_keys t) : insert sha t k = .error .keyInTree := by
  obtain ⟨L, R, hs, hwL, hwR, hmL, hmR⟩ := split_spec hw k false
  have hkR : k ∈ collect_keys R := by
    refine (hmR k).mpr ⟨hk, ?_⟩
    rw [splitLeftP_false]
    omega
  obtain ⟨nd, hnd⟩ := find_mem hwR k hkR
  exact insert_eq_err hs hnd

theorem remove_mem_spec {sha : String → Int} {t : T} (hw : WF sha t) {k : Int}
    (hk : k ∈ collect_keys t) (hinj : PrioInj sha (collect_keys t)) :
    ∃ t2, remove t k = .ok t2 ∧ WF sha t2 ∧
      collect_keys t2 = (collect_keys t).erase k := by
  obtain ⟨L, R, hs, hwL, hwR, hmL, hmR⟩ := split_spec hw k false
  have hsubL : collect_keys L ⊆ collect_keys t := fun x hx => ((hmL x).mp hx).1
  have hsubR : collect_keys R ⊆ collect_keys t := fun x hx => ((hmR x).mp hx).1
  have hkR : k ∈ collect_keys R := by
    refine (hmR k).mpr ⟨hk, ?_⟩
    rw [splitLeftP_false]
    omega
  have hRne : R ≠ T.none := by
    intro he
    rw [he] at hkR
    simp [collect_keys] at hkR
  obtain ⟨L2, R2, hs2, hwL2, hwR2, hmL2, hmR2⟩ := split_spec hwR k true
  have hkL2 : k ∈ collect_keys L2 := by
    refine (hmL2 k).mpr ⟨hkR, ?_⟩
    rw [splitLeftP_true]
  have hL2ne : L2 ≠ T.none := by
    intro he
    rw [he] at hkL2
    simp [collect_keys] at hkL2
  have hR2gt : ∀ y ∈ collect_keys R2, k < y := by
    intro y hy
    have h2 := ((hmR2 y).mp hy).2
    rw [splitLeftP_true] at h2
    omega
  obtain ⟨res, hres, hwres, hmemres⟩ := merge_spec L R2 hwL hwR2
    (by
      intro x hx y hy
      have hx2 := ((hmL x).mp hx).2
      rw [splitLeftP_false] at hx2
      exact lt_trans hx2 (hR2gt y hy))
    (by
      refine prioinj_mono ?_ hinj
      intro x hx
      rcases Finset.mem_union.mp hx with hx | hx
      · exact hsubL hx
      · exact hsubR (((hmR2 x).mp hx).1))
  refine ⟨res, remove_eq_ok hs hRne hs2 hL2ne hres, hwres, ?_⟩
  ext x
  rw [hmemres x, Finset.mem_erase]
  constructor
  · rintro (hx | hx)
    · obtain ⟨hxt, hxP⟩ := (hmL x).mp hx
      rw [splitLeftP_false] at hxP
      exact ⟨by omega, hxt⟩
    · refine ⟨by have := hR2gt x hx; omega, hsubR (((hmR2 x).mp hx).1)⟩
  · rintro ⟨hxk, hxt⟩
    by_cases hlt : x < k
    · exact Or.inl ((hmL x).mpr ⟨hxt, (splitLeftP_false k x).mpr hlt⟩)
    · have hgt : k < x := by omega
      refine Or.inr ((hmR2 x).mpr ⟨?_, ?_⟩)
      · refine (hmR x).mpr ⟨hxt, ?_⟩
        rw [splitLeftP_false]
        omega
      · rw [splitLeftP_true]
        omega

theorem remove_notmem_iff {sha : String → Int} {t : T} (hw : WF sha t) {k : Int}
    (hk : k ∉ collect_keys t) :
    (remove t k = .error .keyNotInTree ↔ ∃ x ∈ collect_keys t, k < x) := by
  obtain ⟨L, R, hs, hwL, hwR, hmL, hmR⟩ := split_spec hw k false
  have hRchar : ∀ x, x ∈ collect_keys R ↔ x ∈ collect_keys t ∧ k < x := by
    intro x
    rw [hmR x, splitLeftP_false]
    constructor
    · rintro ⟨hxt, hx⟩
      have hne : x ≠ k := fun he => hk (he ▸ hxt)
      exact ⟨hxt, by omega⟩
    · rintro ⟨hxt, hx⟩
      exact ⟨hxt, by omega⟩
  by_cases hex : ∃ x ∈ collect_keys t, k < x
  · obtain ⟨x, hxt, hxk⟩ := hex
    have hxR : x ∈ collect_keys R := (hRchar x).mpr ⟨hxt, hxk⟩
    have hRne : R ≠ T.none := by
      intro he
      rw [he] at hxR
      simp [collect_keys] at hxR
    obtain ⟨L2, R2, hs2, hwL2, hwR2, hmL2, hmR2⟩ := split_spec hwR k true
    have hL2none : L2 = T.none := by
      refine wf_keys_empty hwL2 ?_
      ext y
      simp only [Finset.not_mem_empty, iff_false]
      intro hy
      obtain ⟨hyR, hyP⟩ := (hmL2 y).mp hy
      rw [splitLeftP_true] at hyP
      have := ((hRchar y).mp hyR).2
      omega
    exact ⟨fun _ => ⟨x, hxt, hxk⟩, fun _ => remove_eq_err hs hRne hs2 hL2none⟩
  · have hRnone : R = T.none := by
      refine wf_keys_empty hwR ?_
      ext y
      simp only [Finset.not_mem_empty, iff_false]
      intro hy
      obtain ⟨hyt, hyk⟩ := (hRchar y).mp hy
      exact hex ⟨y, hyt, hyk⟩
    subst hRnone
    have hLok : ∃ m, merge L T.none = .ok m := by
      cases L with
      | none => exact ⟨T.none, merge_none_none⟩
      | comp kc pc lh rh => exact absurd hwL wf_not_comp
      | node kp pp lp rp => exact ⟨_, merge_node_none kp pp lp rp⟩
    obtain ⟨m, hmm⟩ := hLok
    constructor
    · intro herr
      rw [remove_eq_empty hs hmm] at herr
      exact absurd herr (by simp)
    · intro hcon
      exact absurd hcon hex

/-! ### Uniqueness of the treap shape and `build_treap` -/

theorem wf_left_char {sha : String → Int} {k p : Int} {l r : T}
    (hw : WF sha (T.node k p l r)) :
    ∀ x, x ∈ collect_keys l ↔ x ∈ collect_keys (T.node k p l r) ∧ x < k := by
  intro x
  constructor
  · intro hx
    exact ⟨(mem_node_keys x).mpr (Or.inl hx), wf_keys_left hw x hx⟩
  · rintro ⟨hx, hlt⟩
    rcases (mem_node_keys x).mp hx with hx | hx | hx
    · exact hx
    · omega
    · have := wf_keys_right hw x hx
      omega

theorem wf_right_char {sha : String → Int} {k p : Int} {l r : T}
    (hw : WF sha (T.node k p l r)) :
    ∀ x, x ∈ collect_keys r ↔ x ∈ collect_keys (T.node k p l r) ∧ k < x := by
  intro x
  constructor
  · intro hx
    exact ⟨(mem_node_keys x).mpr (Or.inr (Or.inr hx)), wf_keys_right hw x hx⟩
  · rintro ⟨hx, hlt⟩
    rcases (mem_node_keys x).mp hx with hx | hx | hx
    · have := wf_keys_left hw x hx
      omega
    · omega
    · exact hx

theorem wf_unique {sha : String → Int} : ∀ t1 t2 : T, WF sha t1 → WF sha t2 →
    collect_keys t1 = collect_keys t2 → PrioInj sha (collect_keys t1) →
    t1 = t2 := by
  intro t1
  induction t1 with
  | none =>
      intro t2 _ hw2 hkeys _
      exact (wf_keys_empty hw2 (by simp [collect_keys] at hkeys ⊢; exact hkeys.symm)).symm
  | comp kc pc lh rh =>
      intro t2 hw1
      exact absurd hw1 wf_not_comp
  | node k1 p1 l1 r1 ihl ihr =>
      intro t2 hw1 hw2 hkeys hinj
      cases t2 with
      | none =>
          exfalso
          have hmem : k1 ∈ collect_keys (T.node k1 p1 l1 r1) :=
            (mem_node_keys k1).mpr (Or.inr (Or.inl rfl))
          rw [hkeys] at hmem
          simp [collect_keys] at hmem
      | comp kc pc lh rh => exact absurd hw2 wf_not_comp
      | node k2 p2 l2 r2 =>
          have hk1mem1 : k1 ∈ collect_keys (T.node k1 p1 l1 r1) :=
            (mem_node_keys k1).mpr (Or.inr (Or.inl rfl))
          have hk2mem2 : k2 ∈ collect_keys (T.node k2 p2 l2 r2) :=
            (mem_node_keys k2).mpr (Or.inr (Or.inl rfl))
          have hk2mem1 : k2 ∈ collect_keys (T.node k1 p1 l1 r1) := by
            rw [hkeys]; exact hk2mem2
          have hk1mem2 : k1 ∈ collect_keys (T.node k2 p2 l2 r2) := by
            rw [← hkeys]; exact hk1mem1
          have hkk : k1 = k2 := by
            by_contra hne
            have h1 := wf_prio_root hw1 k2 hk2mem1 (fun he => hne he.symm)
            have h2 := wf_prio_root hw2 k1 hk1mem2 hne
            omega
          subst hkk
          have hpp : p1 = p2 := by
            rw [wf_root_prior hw1, wf_root_prior hw2]
          subst hpp
          have hleq : collect_keys l1 = collect_keys l2 := by
            ext x
            rw [wf_left_char hw1 x, wf_left_char hw2 x, hkeys]
          have hreq : collect_keys r1 = collect_keys r2 := by
            ext x
            rw [wf_right_char hw1 x, wf_right_char hw2 x, hkeys]
          have hl12 : l1 = l2 := by
            refine ihl l2 (wf_left hw1) (wf_left hw2) hleq ?_
            refine prioinj_mono ?_ hinj
            intro x hx
            exact (mem_node_keys x).mpr (Or.inl hx)
          have hr12 : r1 = r2 := by
            refine ihr r2 (wf_right hw1) (wf_right hw2) hreq ?_
            refine prioinj_mono ?_ hinj
            intro x hx
            exact (mem_node_keys x).mpr (Or.inr (Or.inr hx))
          rw [hl12, hr12]

theorem foldl_insert_keys_spec {sha : String → Int} :
    ∀ (ks : List Int) (t : T), WF sha t → ks.Nodup →
    (∀ k ∈ ks, k ∉ collect_keys t) →
    PrioInj sha (collect_keys t ∪ ks.toFinset) →
    ∃ t2, ks.foldlM (fun cur k => insert sha cur k) t = .ok t2 ∧
      WF sha t2 ∧ collect_keys t2 = collect_keys t ∪ ks.toFinset := by
  intro ks
  induction ks with
  | nil =>
      intro t hw _ _ _
      exact ⟨t, rfl, hw, by simp⟩
  | cons k es ih =>
      intro t hw hnd hnotin hinj
      have hknotin : k ∉ collect_keys t := hnotin k (by simp)
      have hinj1 : PrioInj sha (collect_keys t ∪ {k}) := by
        refine prioinj_mono ?_ hinj
        intro x hx
        rcases Finset.mem_union.mp hx with hx | hx
        · exact Finset.mem_union.mpr (Or.inl hx)
        · exact Finset.mem_union.mpr (Or.inr (by simp at hx; simp [hx]))
      obtain ⟨t1, hins, hwt1, hkeys1⟩ := insert_spec hw hknotin hinj1
      have hndtail : es.Nodup := (List.nodup_cons.mp hnd).2
      have hknotines : k ∉ es := (List.nodup_cons.mp hnd).1
      have hnotin2 : ∀ k2 ∈ es, k2 ∉ collect_keys t1 := by
        intro k2 hk2 hmem
        rw [hkeys1] at hmem
        rcases Finset.mem_union.mp hmem with hmem | hmem
        · exact hnotin k2 (by simp [hk2]) hmem
        · simp at hmem
          exact hknotines (hmem ▸ hk2)
      have hinj2 : PrioInj sha (collect_keys t1 ∪ es.toFinset) := by
        refine prioinj_mono ?_ hinj
        intro x hx
        rw [hkeys1] at hx
        rcases Finset.mem_union.mp hx with hx | hx
        · rcases Finset.mem_union.mp hx with hx | hx
          · exact Finset.mem_union.mpr (Or.inl hx)
          · simp at hx
            exact Finset.mem_union.mpr (Or.inr (by simp [hx]))
        · simp at hx
          exact Finset.mem_union.mpr (Or.inr (by simp [hx]))
      obtain ⟨t2, hfold, hwt2, hkeys2⟩ := ih t1 hwt1 hndtail hnotin2 hinj2
      refine ⟨t2, ?_, hwt2, ?_⟩
      · rw [List.foldlM_cons, hins]
        simp only [except_ok_bind]
        exact hfold
      · rw [hkeys2, hkeys1]
        ext x
        simp only [Finset.mem_union, Finset.mem_singleton, List.toFinset_cons,
          Finset.mem_insert]
        tauto

theorem build_treap_spec {sha : String → Int} (els : List PyVal)
    (hnd : (els.map (to_key sha)).Nodup)
    (hinj : PrioInj sha (els.map (to_key sha)).toFinset) :
    ∃ t, build_treap sha els = .ok t ∧ WF sha t ∧
      collect_keys t = (els.map (to_key sha)).toFinset := by
  have hfold : els.foldlM (fun t el => insert sha t (to_key sha el)) T.none =
      (els.map (to_key sha)).foldlM (fun cur k => insert sha cur k) T.none := by
    rw [List.foldlM_map]
  obtain ⟨t, hok, hw, hkeys⟩ := foldl_insert_keys_spec (els.map (to_key sha))
    T.none WF.none hnd (by intro k _; simp [collect_keys])
    (by
      refine prioinj_mono ?_ hinj
      intro x hx
      rcases Finset.mem_union.mp hx with hx | hx
      · simp [collect_keys] at hx
      · exact hx)
  refine ⟨t, ?_, hw, ?_⟩
  · rw [build_treap, hfold]
    exact hok
  · rw [hkeys]
    simp [collect_keys]

/-! ### Compressed-subtree proofs: `compress_tree_for` and friends -/

@[simp] theorem except_error_bind {α β : Type} (e : Err) (f : α → Except Err β) :
    ((Except.error e : Except Err α) >>= f) = .error e := rfl

@[simp] theorem except_pure_eq_ok {α : Type} (a : α) :
    (pure a : Except Err α) = Except.ok a := rfl

theorem merkleRoot_compressOpt {sha : String → Int} {t : T} (hw : WF sha t) :
    merkleRoot (compressOpt sha t) = merkleRoot t := by
  cases hw with
  | none => rfl
  | node _ _ _ _ _ => simp [compressOpt, compress, merkleRoot]

theorem covers_compressOpt {sha : String → Int} {t : T} (hw : WF sha t) :
    Covers sha (compressOpt sha t) t := by
  cases hw with
  | none => exact Covers.none
  | node _ _ _ _ _ => exact Covers.comp rfl

theorem compress_tree_for_spec {sha : String → Int} {t : T} (hw : WF sha t) :
    ∀ m ∈ collect_keys t, ∃ p, compress_tree_for sha t m = .ok p ∧
      Covers sha p t ∧ m ∈ collect_keys p := by
  induction hw with
  | none => intro m hm; simp [collect_keys] at hm
  | @node kt l r hl hr hbl hbr hp ihl ihr =>
      intro m hm
      by_cases hkm : kt = m
      · refine ⟨T.node kt (to_priority sha kt) (compressOpt sha l) (compressOpt sha r),
          ?_, ?_, ?_⟩
        · rw [compress_tree_for, if_pos hkm]
          rfl
        · exact Covers.node (covers_compressOpt hl) (covers_compressOpt hr)
        · rw [mem_node_keys m]
          exact Or.inr (Or.inl hkm.symm)
      · rcases (mem_node_keys m).mp hm with hml | hmk | hmr
        · have hmlt : m < kt := hbl m hml
          have hlne : l ≠ T.none := by
            intro he
            rw [he] at hml
            simp [collect_keys] at hml
          obtain ⟨pl, hpl, hcov, hmem⟩ := ihl m hml
          refine ⟨T.node kt (to_priority sha kt) pl (compressOpt sha r), ?_, ?_, ?_⟩
          · rw [compress_tree_for, if_neg hkm, if_neg (by omega : ¬ m > kt),
              if_neg hlne, hpl]
            rfl
          · exact Covers.node hcov (covers_compressOpt hr)
          · rw [mem_node_keys m]
            exact Or.inl hmem
        · exact absurd hmk.symm hkm
        · have hmgt : kt < m := hbr m hmr
          have hrne : r ≠ T.none := by
            intro he
            rw [he] at hmr
            simp [collect_keys] at hmr
          obtain ⟨pr, hpr, hcov, hmem⟩ := ihr m hmr
          refine ⟨T.node kt (to_priority sha kt) (compressOpt sha l) pr, ?_, ?_, ?_⟩
          · rw [compress_tree_for, if_neg hkm, if_pos (by omega : m > kt),
              if_neg hrne, hpr]
            rfl
          · exact Covers.node (covers_compressOpt hl) hcov
          · rw [mem_node_keys m]
            exact Or.inr (Or.inr hmem)

theorem prove_inclusion_spec {sha : String → Int} {t : T} (hw : WF sha t)
    {m : Int} (hm : m ∈ collect_keys t) :
    ∃ p, prove_inclusion sha t m = .ok p ∧ Covers sha p t ∧
      m ∈ collect_keys p ∧ compress_tree_for sha t m = .ok p := by
  obtain ⟨p, hcp, hcov, hmem⟩ := compress_tree_for_spec hw m hm
  refine ⟨p, ?_, hcov, hmem, hcp⟩
  rw [prove_inclusion, hcp]
  simp only [except_ok_bind]
  rw [if_pos (covers_merkleRoot hcov).symm]
  rfl

theorem verify_inclusions_ok {t p : T} {k : Int}
    (hroot : merkleRoot t = merkleRoot p) (hmem : k ∈ collect_keys p) :
    verify_inclusions t [k] p = .ok true := by
  rw [verify_inclusions, if_neg (by simp [hroot])]
  simp [hmem]

/-! ### Path-regularity predicates for replaying operations on proofs -/

/-- The direction the split recursion takes at a node with key `kt` when
splitting at `k`: `True` means it descends into the right child. -/
def sdir (eqL : Bool) (k kt : Int) : Prop :=
  kt < k ∨ (eqL = true ∧ kt = k)

instance (eqL : Bool) (k kt : Int) : Decidable (sdir eqL k kt) := by
  unfold sdir
  infer_instance

/-- The recursion path of `split(·, k, eqL)` meets only regular nodes and
ends at an absent child; exactly the condition for the split to succeed. -/
def SplitPathReg (eqL : Bool) (k : Int) : T → Prop
  | T.none => True
  | T.comp _ _ _ _ => False
  | T.node kt _ l r =>
      if sdir eqL k kt then SplitPathReg eqL k r else SplitPathReg eqL k l

/-- Left spine made only of regular nodes, ending at an absent child. -/
def LSpineReg : T → Prop
  | T.none => True
  | T.comp _ _ _ _ => False
  | T.node _ _ l _ => LSpineReg l

/-- Right spine made only of regular nodes, ending at an absent child. -/
def RSpineReg : T → Prop
  | T.none => True
  | T.comp _ _ _ _ => False
  | T.node _ _ _ r => RSpineReg r

theorem split_node_inv {kt pt : Int} {l r : T} {k : Int} {eqL : Bool} {L R : T}
    (h : split (T.node kt pt l r) k eqL = .ok (L, R)) :
    (sdir eqL k kt ∧ ∃ L1 R1, split r k eqL = .ok (L1, R1) ∧
      L = T.node kt pt l L1 ∧ R = R1) ∨
    (¬ sdir eqL k kt ∧ ∃ L1 R1, split l k eqL = .ok (L1, R1) ∧
      L = L1 ∧ R = T.node kt pt R1 r) := by
  by_cases hc : kt < k ∨ (eqL = true ∧ kt = k)
  · left
    refine ⟨hc, ?_⟩
    rw [split, if_pos hc] at h
    cases hsr : split r k eqL with
    | error e => rw [hsr] at h; simp at h
    | ok pr =>
        obtain ⟨L1, R1⟩ := pr
        rw [hsr] at h
        simp only [except_ok_bind, except_pure_eq_ok, Except.ok.injEq,
          Prod.mk.injEq] at h
        exact ⟨L1, R1, rfl, h.1.symm, h.2.symm⟩
  · right
    refine ⟨hc, ?_⟩
    rw [split, if_neg hc] at h
    cases hsl : split l k eqL with
    | error e => rw [hsl] at h; simp at h
    | ok pl =>
        obtain ⟨L1, R1⟩ := pl
        rw [hsl] at h
        simp only [except_ok_bind, except_pure_eq_ok, Except.ok.injEq,
          Prod.mk.injEq] at h
        exact ⟨L1, R1, rfl, h.1.symm, h.2.symm⟩

theorem split_of_pathreg {eqL : Bool} {k : Int} :
    ∀ p : T, SplitPathReg eqL k p → ∃ L R, split p k eqL = .ok (L, R) := by
  intro p
  induction p with
  | none => intro _; exact ⟨T.none, T.none, rfl⟩
  | comp kc pc lh rh => intro h; exact absurd h (by simp [SplitPathReg])
  | node kt pt l r ihl ihr =>
      intro h
      rw [SplitPathReg] at h
      by_cases hc : sdir eqL k kt
      · rw [if_pos hc] at h
        obtain ⟨L1, R1, hs⟩ := ihr h
        refine ⟨T.node kt pt l L1, R1, ?_⟩
        rw [split, if_pos (show kt < k ∨ (eqL = true ∧ kt = k) from hc), hs]
        rfl
      · rw [if_neg hc] at h
        obtain ⟨L1, R1, hs⟩ := ihl h
        refine ⟨L1, T.node kt pt R1 r, ?_⟩
        rw [split, if_neg (show ¬ (kt < k ∨ (eqL = true ∧ kt = k)) from hc), hs]
        rfl

theorem split_spines {eqL : Bool} {k : Int} :
    ∀ p L R : T, split p k eqL = .ok (L, R) → RSpineReg L ∧ LSpineReg R := by
  intro p
  induction p with
  | none =>
      intro L R h
      obtain ⟨hL, hR⟩ := Prod.mk.injEq .. ▸ (Except.ok.inj h)
      rw [← hL, ← hR]
      exact ⟨trivial, trivial⟩
  | comp kc pc lh rh => intro L R h; simp [split] at h
  | node kt pt l r ihl ihr =>
      intro L R h
      rcases split_node_inv h with ⟨hc, L1, R1, hs, hL, hR⟩ | ⟨hc, L1, R1, hs, hL, hR⟩
      · obtain ⟨hrs, hls⟩ := ihr L1 R1 hs
        rw [hL, hR]
        exact ⟨hrs, hls⟩
      · obtain ⟨hrs, hls⟩ := ihl L1 R1 hs
        rw [hL, hR]
        exact ⟨hrs, hls⟩

theorem merge_comp_left (k p : Int) (lh rh : Digest) (b : T) :
    merge (T.comp k p lh rh) b = .error .touchedCompressedNode := by
  simp [merge]

theorem merge_comp_right (a : T) (k p : Int) (lh rh : Digest) :
    merge a (T.comp k p lh rh) = .error .touchedCompressedNode := by
  cases a with
  | none => simp [merge]
  | comp k2 p2 lh2 rh2 => simp [merge]
  | node k2 p2 l2 r2 => simp [merge]

theorem merge_spines : ∀ a b : T, RSpineReg a → LSpineReg b →
    ∃ m, merge a b = .ok m := by
  intro a b
  induction a, b using merge.induct with
  | case1 kc pc lh rh x =>
      intro ha
      exact absurd ha (by simp [RSpineReg])
  | case2 x kc pc lh rh hx =>
      intro _ hb
      exact absurd hb (by simp [LSpineReg])
  | case3 b hb =>
      intro _ _
      cases b with
      | none => exact ⟨T.none, merge_none_none⟩
      | comp kc pc lh rh => exact (hb kc pc lh rh rfl).elim
      | node k p l r => exact ⟨T.node k p l r, merge_none_node k p l r⟩
  | case4 a ha hne =>
      intro _ _
      cases a with
      | none => exact ⟨T.none, merge_none_none⟩
      | comp kc pc lh rh => exact (ha kc pc lh rh rfl).elim
      | node k p l r => exact ⟨T.node k p l r, merge_node_none k p l r⟩
  | case5 k1 p1 l1 r1 k2 p2 l2 r2 hgt ih =>
      intro ha hb
      obtain ⟨m, hm⟩ := ih (by exact ha) hb
      exact ⟨T.node k1 p1 l1 m, merge_gt hgt hm⟩
  | case6 k1 p1 l1 r1 k2 p2 l2 r2 hle ih =>
      intro ha hb
      obtain ⟨m, hm⟩ := ih ha (by exact hb)
      exact ⟨T.node k2 p2 m r2, merge_ngt hle hm⟩

theorem merge_gt_inv {k1 p1 k2 p2 : Int} {l1 r1 l2 r2 m : T} (hgt : p1 > p2)
    (h : merge (T.node k1 p1 l1 r1) (T.node k2 p2 l2 r2) = .ok m) :
    ∃ m2, merge r1 (T.node k2 p2 l2 r2) = .ok m2 ∧ m = T.node k1 p1 l1 m2 := by
  rw [merge, if_pos hgt] at h
  cases hm2 : merge r1 (T.node k2 p2 l2 r2) with
  | error e => rw [hm2] at h; simp at h
  | ok m2 =>
      rw [hm2] at h
      simp only [except_ok_bind, except_pure_eq_ok, Except.ok.injEq] at h
      exact ⟨m2, rfl, h.symm⟩

theorem merge_ngt_inv {k1 p1 k2 p2 : Int} {l1 r1 l2 r2 m : T} (hle : ¬ p1 > p2)
    (h : merge (T.node k1 p1 l1 r1) (T.node k2 p2 l2 r2) = .ok m) :
    ∃ m2, merge (T.node k1 p1 l1 r1) l2 = .ok m2 ∧ m = T.node k2 p2 m2 r2 := by
  rw [merge, if_neg hle] at h
  cases hm2 : merge (T.node k1 p1 l1 r1) l2 with
  | error e => rw [hm2] at h; simp at h
  | ok m2 =>
      rw [hm2] at h
      simp only [except_ok_bind, except_pure_eq_ok, Except.ok.injEq] at h
      exact ⟨m2, rfl, h.symm⟩

theorem merge_lspine : ∀ a b : T, LSpineReg a → LSpineReg b →
    ∀ m, merge a b = .ok m → LSpineReg m := by
  intro a b
  induction a, b using merge.induct with
  | case1 kc pc lh rh x =>
      intro ha
      exact absurd ha (by simp [LSpineReg])
  | case2 x kc pc lh rh hx =>
      intro _ hb
      exact absurd hb (by simp [LSpineReg])
  | case3 b hb =>
      intro _ hlb m hm
      cases b with
      | none => rw [merge_none_none] at hm; cases hm; exact trivial
      | comp kc pc lh rh => exact (hb kc pc lh rh rfl).elim
      | node k p l r => rw [merge_none_node] at hm; cases hm; exact hlb
  | case4 a ha hne =>
      intro hla _ m hm
      cases a with
      | none => rw [merge_none_none] at hm; cases hm; exact trivial
      | comp kc pc lh rh => exact (ha kc pc lh rh rfl).elim
      | node k p l r => rw [merge_node_none] at hm; cases hm; exact hla
  | case5 k1 p1 l1 r1 k2 p2 l2 r2 hgt ih =>
      intro ha hb m hm
      obtain ⟨m2, hm2, hmeq⟩ := merge_gt_inv hgt hm
      rw [hmeq]
      exact ha
  | case6 k1 p1 l1 r1 k2 p2 l2 r2 hle ih =>
      intro ha hb m hm
      obtain ⟨m2, hm2, hmeq⟩ := merge_ngt_inv hle hm
      rw [hmeq]
      exact ih ha (by exact hb) m2 hm2

/-! ### Simulation: operations on a proof mirror operations on the tree -/

theorem split_covers {sha : String → Int} : ∀ p t : T, Covers sha p t →
    ∀ (k : Int) (eqL : Bool) (L R L2 R2 : T),
    split t k eqL = .ok (L, R) → split p k eqL = .ok (L2, R2) →
    Covers sha L2 L ∧ Covers sha R2 R := by
  intro p t hc
  induction hc with
  | none =>
      intro k eqL L R L2 R2 h1 h2
      simp only [split, except_pure_eq_ok, Except.ok.injEq, Prod.mk.injEq] at h1 h2
      rw [← h1.1, ← h1.2, ← h2.1, ← h2.2]
      exact ⟨Covers.none, Covers.none⟩
  | comp hp =>
      intro k eqL L R L2 R2 _ h2
      simp [split] at h2
  | @node kt pt l r l2 r2 hcl hcr ihl ihr =>
      intro k eqL L R L2 R2 h1 h2
      rcases split_node_inv h1 with ⟨hc1, La, Ra, hsa, hLa, hRa⟩ |
        ⟨hc1, La, Ra, hsa, hLa, hRa⟩
      · rcases split_node_inv h2 with ⟨hc2, Lb, Rb, hsb, hLb, hRb⟩ |
          ⟨hc2, Lb, Rb, hsb, hLb, hRb⟩
        · obtain ⟨hcovL, hcovR⟩ := ihr k eqL La Ra Lb Rb hsa hsb
          rw [hLa, hRa, hLb, hRb]
          exact ⟨Covers.node hcl hcovL, hcovR⟩
        · exact absurd hc1 hc2
      · rcases split_node_inv h2 with ⟨hc2, Lb, Rb, hsb, hLb, hRb⟩ |
          ⟨hc2, Lb, Rb, hsb, hLb, hRb⟩
        · exact absurd hc2 hc1
        · obtain ⟨hcovL, hcovR⟩ := ihl k eqL La Ra Lb Rb hsa hsb
          rw [hLa, hRa, hLb, hRb]
          exact ⟨hcovL, Covers.node hcovR hcr⟩

theorem merge_covers {sha : String → Int} : ∀ a b : T,
    ∀ a2 b2 m m2 : T, Covers sha a2 a → Covers sha b2 b →
    merge a b = .ok m → merge a2 b2 = .ok m2 → Covers sha m2 m := by
  intro a b
  induction a, b using merge.induct with
  | case1 kc pc lh rh x =>
      intro a2 b2 m m2 _ _ h1 _
      simp [merge] at h1
  | case2 x kc pc lh rh hx =>
      intro a2 b2 m m2 _ _ h1 _
      cases x with
      | none => simp [merge] at h1
      | comp kc2 pc2 lh2 rh2 => simp [merge] at h1
      | node kx px lx rx => simp [merge] at h1
  | case3 b hb =>
      intro a2 b2 m m2 hca hcb h1 h2
      have ha2 : a2 = T.none := covers_none_inv hca
      subst ha2
      cases b with
      | none =>
          have hb2 : b2 = T.none := covers_none_inv hcb
          subst hb2
          rw [merge_none_none] at h1 h2
          cases h1; cases h2
          exact Covers.none
      | comp kc pc lh rh => exact (hb kc pc lh rh rfl).elim
      | node k p l r =>
          rw [merge_none_node] at h1
          cases h1
          cases hcb with
          | comp hp =>
              rw [merge_comp_right] at h2
              simp at h2
          | node hcbl hcbr =>
              rw [merge_none_node] at h2
              cases h2
              exact Covers.node hcbl hcbr
  | case4 a ha hne =>
      intro a2 b2 m m2 hca hcb h1 h2
      have hb2 : b2 = T.none := covers_none_inv hcb
      subst hb2
      cases a with
      | none => exact absurd rfl hne
      | comp kc pc lh rh => exact (ha kc pc lh rh rfl).elim
      | node k p l r =>
          rw [merge_node_none] at h1
          cases h1
          cases hca with
          | comp hp =>
              rw [merge_comp_left] at h2
              simp at h2
          | node hcal hcar =>
              rw [merge_node_none] at h2
              cases h2
              exact Covers.node hcal hcar
  | case5 k1 p1 l1 r1 k2 p2 l2 r2 hgt ih =>
      intro a2 b2 m m2 hca hcb h1 h2
      obtain ⟨ma, hma, hmaeq⟩ := merge_gt_inv hgt h1
      cases hca with
      | comp hp =>
          rw [merge_comp_left] at h2
          simp at h2
      | @node _ _ _ _ la2 ra2 hcal hcar =>
          cases hcb with
          | comp hp =>
              rw [merge_comp_right] at h2
              simp at h2
          | @node _ _ _ _ lb2 rb2 hcbl hcbr =>
              obtain ⟨mb, hmb, hmbeq⟩ := merge_gt_inv hgt h2
              rw [hmaeq, hmbeq]
              exact Covers.node hcal
                (ih ra2 (T.node k2 p2 lb2 rb2) ma mb hcar
                  (Covers.node hcbl hcbr) hma hmb)
  | case6 k1 p1 l1 r1 k2 p2 l2 r2 hle ih =>
      intro a2 b2 m m2 hca hcb h1 h2
      obtain ⟨ma, hma, hmaeq⟩ := merge_ngt_inv hle h1
      cases hca with
      | comp hp =>
          rw [merge_comp_left] at h2
          simp at h2
      | @node _ _ _ _ la2 ra2 hcal hcar =>
          cases hcb with
          | comp hp =>
              rw [merge_comp_right] at h2
              simp at h2
          | @node _ _ _ _ lb2 rb2 hcbl hcbr =>
              obtain ⟨mb, hmb, hmbeq⟩ := merge_ngt_inv hle h2
              rw [hmaeq, hmbeq]
              exact Covers.node
                (ih (T.node k1 p1 la2 ra2) lb2 ma mb
                  (Covers.node hcal hcar) hcbl hma hmb) hcbr

theorem find_lspine_none {k : Int} : ∀ p : T, LSpineReg p →
    (∀ x ∈ collect_keys p, k < x) → find p k = .ok Option.none := by
  intro p
  induction p with
  | none => intro _ _; rfl
  | comp kc pc lh rh => intro h; exact absurd h (by simp [LSpineReg])
  | node kt pt l r ihl ihr =>
      intro hspine hgt
      have hktmem : kt ∈ collect_keys (T.node kt pt l r) :=
        (mem_node_keys kt).mpr (Or.inr (Or.inl rfl))
      have hklt : k < kt := hgt kt hktmem
      rw [find, if_neg (by omega : ¬ kt = k), if_neg (by omega : ¬ k ≥ kt)]
      refine ihl hspine ?_
      intro x hx
      exact hgt x ((mem_node_keys x).mpr (Or.inl hx))

theorem find_none_of_pathreg {k : Int} : ∀ p : T, SplitPathReg false k p →
    k ∉ collect_keys p → find p k = .ok Option.none := by
  intro p
  induction p with
  | none => intro _ _; rfl
  | comp kc pc lh rh => intro h; exact absurd h (by simp [SplitPathReg])
  | node kt pt l r ihl ihr =>
      intro hreg hnot
      rw [mem_node_keys k] at hnot
      push_neg at hnot
      obtain ⟨hnl, hnk, hnr⟩ := hnot
      rw [SplitPathReg] at hreg
      rw [find, if_neg (by omega : ¬ kt = k)]
      by_cases hc : sdir false k kt
      · have hlt : kt < k := by
          rcases hc with hlt | ⟨hfalse, _⟩
          · exact hlt
          · simp at hfalse
        rw [if_pos (by omega : k ≥ kt)]
        rw [if_pos hc] at hreg
        exact ihr hreg hnr
      · have hge : ¬ kt < k := fun hlt => hc (Or.inl hlt)
        rw [if_neg (by omega : ¬ k ≥ kt)]
        rw [if_neg hc] at hreg
        exact ihl hreg hnl

/-! ### When does revealing the path to `m` make the split path for `k`
regular?  `GoodFor eqL k t m` says: along the BST path to `m` in the full
tree `t`, wherever the split direction for `k` differs from the direction
towards `m` (or the path to `m` ends), the child the split would enter is
absent. -/

def GoodFor (eqL : Bool) (k : Int) : T → Int → Prop
  | T.none, _ => True
  | T.comp _ _ _ _, _ => True
  | T.node kt _ l r, m =>
      if kt = m then (if sdir eqL k kt then r = T.none else l = T.none)
      else if kt < m then
        (if sdir eqL k kt then GoodFor eqL k r m else l = T.none)
      else
        (if sdir eqL k kt then r = T.none else GoodFor eqL k l m)

theorem compressOpt_none {sha : String → Int} {t : T} (h : t = T.none) :
    compressOpt sha t = T.none := by
  rw [h]
  rfl

theorem pathreg_of_goodfor {sha : String → Int} {eqL : Bool} {k : Int} :
    ∀ t : T, WF sha t → ∀ m p, GoodFor eqL k t m →
    compress_tree_for sha t m = .ok p → SplitPathReg eqL k p := by
  intro t
  induction t with
  | none =>
      intro _ m p _ hcp
      simp [compress_tree_for] at hcp
  | comp kc pc lh rh =>
      intro hw
      exact absurd hw wf_not_comp
  | node kt pt l r ihl ihr =>
      intro hw m p hgood hcp
      rw [GoodFor] at hgood
      rw [compress_tree_for] at hcp
      by_cases hkm : kt = m
      · rw [if_pos hkm] at hcp
        rw [if_pos hkm] at hgood
        cases hcp
        rw [SplitPathReg]
        by_cases hc : sdir eqL k kt
        · rw [if_pos hc] at hgood ⊢
          rw [compressOpt_none hgood]
          trivial
        · rw [if_neg hc] at hgood ⊢
          rw [compressOpt_none hgood]
          trivial
      · rw [if_neg hkm] at hcp hgood
        by_cases hmk : m > kt
        · rw [if_pos hmk] at hcp
          rw [if_pos (by omega : kt < m)] at hgood
          by_cases hrn : r = T.none
          · rw [if_pos hrn] at hcp
            simp at hcp
          · rw [if_neg hrn] at hcp
            cases hrec : compress_tree_for sha r m with
            | error e => rw [hrec] at hcp; simp at hcp
            | ok pr =>
                rw [hrec] at hcp
                simp only [except_ok_bind, except_pure_eq_ok,
                  Except.ok.injEq] at hcp
                rw [← hcp]
                rw [SplitPathReg]
                by_cases hc : sdir eqL k kt
                · rw [if_pos hc] at hgood ⊢
                  exact ihr (wf_right hw) m pr hgood hrec
                · rw [if_neg hc] at hgood ⊢
                  rw [compressOpt_none hgood]
                  trivial
        · rw [if_neg hmk] at hcp
          rw [if_neg (by omega : ¬ kt < m)] at hgood
          by_cases hln : l = T.none
          · rw [if_pos hln] at hcp
            simp at hcp
          · rw [if_neg hln] at hcp
            cases hrec : compress_tree_for sha l m with
            | error e => rw [hrec] at hcp; simp at hcp
            | ok pl =>
                rw [hrec] at hcp
                simp only [except_ok_bind, except_pure_eq_ok,
                  Except.ok.injEq] at hcp
                rw [← hcp]
                rw [SplitPathReg]
                by_cases hc : sdir eqL k kt
                · rw [if_pos hc] at hgood ⊢
                  rw [compressOpt_none hgood]
                  trivial
                · rw [if_neg hc] at hgood ⊢
                  exact ihl (wf_left hw) m pl hgood hrec

/-! ### The last node touched by a failing BST search (`lastT`) -/

theorem lastT_mem {sha : String → Int} : ∀ t : T, WF sha t → ∀ k m,
    lastT t k = Option.some m → m ∈ collect_keys t := by
  intro t
  induction t with
  | none => intro _ k m h; simp [lastT] at h
  | comp kc pc lh rh => intro hw; exact absurd hw wf_not_comp
  | node kt pt l r ihl ihr =>
      intro hw k m h
      rw [lastT] at h
      by_cases hkk : kt = k
      · rw [if_pos hkk] at h
        simp at h
      · rw [if_neg hkk] at h
        by_cases hge : k ≥ kt
        · rw [if_pos hge] at h
          by_cases hrn : r = T.none
          · rw [if_pos hrn] at h
            simp at h
            rw [mem_node_keys m]
            exact Or.inr (Or.inl h.symm)
          · rw [if_neg hrn] at h
            exact (mem_node_keys m).mpr
              (Or.inr (Or.inr (ihr (wf_right hw) k m h)))
        · rw [if_neg hge] at h
          by_cases hln : l = T.none
          · rw [if_pos hln] at h
            simp at h
            rw [mem_node_keys m]
            exact Or.inr (Or.inl h.symm)
          · rw [if_neg hln] at h
            exact (mem_node_keys m).mpr (Or.inl (ihl (wf_left hw) k m h))

theorem lastT_some {sha : String → Int} : ∀ t : T, WF sha t → t ≠ T.none →
    ∀ k, k ∉ collect_keys t → ∃ m, lastT t k = Option.some m := by
  intro t
  induction t with
  | none => intro _ hne; exact absurd rfl hne
  | comp kc pc lh rh => intro hw; exact absurd hw wf_not_comp
  | node kt pt l r ihl ihr =>
      intro hw _ k hk
      have hkk : kt ≠ k := by
        intro he
        exact hk ((mem_node_keys k).mpr (Or.inr (Or.inl he.symm)))
      rw [lastT, if_neg hkk]
      by_cases hge : k ≥ kt
      · rw [if_pos hge]
        by_cases hrn : r = T.none
        · rw [if_pos hrn]
          exact ⟨kt, rfl⟩
        · rw [if_neg hrn]
          refine ihr (wf_right hw) hrn k ?_
          intro hmem
          exact hk ((mem_node_keys k).mpr (Or.inr (Or.inr hmem)))
      · rw [if_neg hge]
        by_cases hln : l = T.none
        · rw [if_pos hln]
          exact ⟨kt, rfl⟩
        · rw [if_neg hln]
          refine ihl (wf_left hw) hln k ?_
          intro hmem
          exact hk ((mem_node_keys k).mpr (Or.inl hmem))

theorem goodfor_of_search {sha : String → Int} {eqL : Bool} {k q : Int} :
    ∀ t : T, WF sha t → q ∉ collect_keys t →
    (∀ x ∈ collect_keys t, (x ≤ q ↔ sdir eqL k x)) →
    ∀ m, lastT t q = Option.some m → GoodFor eqL k t m := by
  intro t
  induction t with
  | none => intro _ _ _ m h; simp [lastT] at h
  | comp kc pc lh rh => intro hw; exact absurd hw wf_not_comp
  | node kt pt l r ihl ihr =>
      intro hw hq hdir m h
      have hktm : kt ∈ collect_keys (T.node kt pt l r) :=
        (mem_node_keys kt).mpr (Or.inr (Or.inl rfl))
      have hktq : kt ≠ q := by
        intro he
        exact hq ((mem_node_keys q).mpr (Or.inr (Or.inl he.symm)))
      rw [lastT, if_neg hktq] at h
      by_cases hge : q ≥ kt
      · have hsd : sdir eqL k kt := (hdir kt hktm).mp (by omega)
        rw [if_pos hge] at h
        by_cases hrn : r = T.none
        · rw [if_pos hrn] at h
          simp at h
          rw [GoodFor, if_pos h, if_pos hsd]
          exact hrn
        · rw [if_neg hrn] at h
          have hmr : m ∈ collect_keys r := lastT_mem r (wf_right hw) q m h
          have hkm : kt < m := wf_keys_right hw m hmr
          rw [GoodFor, if_neg (by omega : ¬ kt = m), if_pos hkm, if_pos hsd]
          refine ihr (wf_right hw) ?_ ?_ m h
          · intro hmem
            exact hq ((mem_node_keys q).mpr (Or.inr (Or.inr hmem)))
          · intro x hx
            exact hdir x ((mem_node_keys x).mpr (Or.inr (Or.inr hx)))
      · have hsd : ¬ sdir eqL k kt := fun hs => by
          have := (hdir kt hktm).mpr hs
          omega
        rw [if_neg hge] at h
        by_cases hln : l = T.none
        · rw [if_pos hln] at h
          simp at h
          rw [GoodFor, if_pos h, if_neg hsd]
          exact hln
        · rw [if_neg hln] at h
          have hml : m ∈ collect_keys l := lastT_mem l (wf_left hw) q m h
          have hkm : m < kt := wf_keys_left hw m hml
          rw [GoodFor, if_neg (by omega : ¬ kt = m),
            if_neg (by omega : ¬ kt < m), if_neg hsd]
          refine ihl (wf_left hw) ?_ ?_ m h
          · intro hmem
            exact hq ((mem_node_keys q).mpr (Or.inl hmem))
          · intro x hx
            exact hdir x ((mem_node_keys x).mpr (Or.inl hx))

theorem goodfor_insert {sha : String → Int} : ∀ t : T, WF sha t → ∀ k lk,
    k ∉ collect_keys t → lastT t k = Option.some lk →
    (lk + 1) ∉ collect_keys t →
    ∃ m2, lastT t (lk + 1) = Option.some m2 ∧ GoodFor false k t m2 := by
  intro t
  induction t with
  | none => intro _ k lk _ h; simp [lastT] at h
  | comp kc pc lh rh => intro hw; exact absurd hw wf_not_comp
  | node kt pt l r ihl ihr =>
      intro hw k lk hk hlast hq
      have hktk : kt ≠ k := by
        intro he
        exact hk ((mem_node_keys k).mpr (Or.inr (Or.inl he.symm)))
      rw [lastT, if_neg hktk] at hlast
      by_cases hge : k ≥ kt
      · rw [if_pos hge] at hlast
        by_cases hrn : r = T.none
        · rw [if_pos hrn] at hlast
          simp at hlast
          subst hlast
          refine ⟨kt, ?_, ?_⟩
          · rw [lastT, if_neg (by omega : ¬ kt = kt + 1),
              if_pos (by omega : kt + 1 ≥ kt), if_pos hrn]
          · rw [GoodFor, if_pos rfl,
              if_pos (show sdir false k kt from Or.inl (by omega))]
            exact hrn
        · rw [if_neg hrn] at hlast
          have hlkr : lk ∈ collect_keys r := lastT_mem r (wf_right hw) k lk hlast
          have hlkgt : kt < lk := wf_keys_right hw lk hlkr
          have hknotr : k ∉ collect_keys r := fun hm =>
            hk ((mem_node_keys k).mpr (Or.inr (Or.inr hm)))
          have hqnotr : (lk + 1) ∉ collect_keys r := fun hm =>
            hq ((mem_node_keys (lk + 1)).mpr (Or.inr (Or.inr hm)))
          obtain ⟨m2, hm2, hgood⟩ := ihr (wf_right hw) k lk hknotr hlast hqnotr
          have hm2r : m2 ∈ collect_keys r := lastT_mem r (wf_right hw) (lk + 1) m2 hm2
          have hm2gt : kt < m2 := wf_keys_right hw m2 hm2r
          refine ⟨m2, ?_, ?_⟩
          · rw [lastT, if_neg (by omega : ¬ kt = lk + 1),
              if_pos (by omega : lk + 1 ≥ kt), if_neg hrn]
            exact hm2
          · rw [GoodFor, if_neg (by omega : ¬ kt = m2),
              if_pos (by omega : kt < m2),
              if_pos (show sdir false k kt from Or.inl (by omega))]
            exact hgood
      · rw [if_neg hge] at hlast
        by_cases hln : l = T.none
        · rw [if_pos hln] at hlast
          simp at hlast
          subst hlast
          by_cases hrn : r = T.none
          · refine ⟨kt, ?_, ?_⟩
            · rw [lastT, if_neg (by omega : ¬ kt = kt + 1),
                if_pos (by omega : kt + 1 ≥ kt), if_pos hrn]
            · rw [GoodFor, if_pos rfl,
                if_neg (show ¬ sdir false k kt from ?_)]
              · exact hln
              · intro hs
                rcases hs with hlt | ⟨hfalse, _⟩
                · omega
                · simp at hfalse
          · have hqnotr : (kt + 1) ∉ collect_keys r := fun hm =>
              hq ((mem_node_keys (kt + 1)).mpr (Or.inr (Or.inr hm)))
            obtain ⟨m2, hm2⟩ := lastT_some r (wf_right hw) hrn (kt + 1) hqnotr
            have hm2r : m2 ∈ collect_keys r :=
              lastT_mem r (wf_right hw) (kt + 1) m2 hm2
            have hm2gt : kt < m2 := wf_keys_right hw m2 hm2r
            refine ⟨m2, ?_, ?_⟩
            · rw [lastT, if_neg (by omega : ¬ kt = kt + 1),
                if_pos (by omega : kt + 1 ≥ kt), if_neg hrn]
              exact hm2
            · rw [GoodFor, if_neg (by omega : ¬ kt = m2),
                if_pos (by omega : kt < m2),
                if_neg (show ¬ sdir false k kt from ?_)]
              · exact hln
              · intro hs
                rcases hs with hlt | ⟨hfalse, _⟩
                · omega
                · simp at hfalse
        · rw [if_neg hln] at hlast
          have hlkl : lk ∈ collect_keys l := lastT_mem l (wf_left hw) k lk hlast
          have hlklt : lk < kt := wf_keys_left hw lk hlkl
          have hqkt : lk + 1 ≠ kt := by
            intro he
            exact hq (he ▸ (mem_node_keys (lk + 1)).mpr (Or.inr (Or.inl rfl)))
          have hqlt : lk + 1 < kt := by omega
          have hknotl : k ∉ collect_keys l := fun hm =>
            hk ((mem_node_keys k).mpr (Or.inl hm))
          have hqnotl : (lk + 1) ∉ collect_keys l := fun hm =>
            hq ((mem_node_keys (lk + 1)).mpr (Or.inl hm))
          obtain ⟨m2, hm2, hgood⟩ := ihl (wf_left hw) k lk hknotl hlast hqnotl
          have hm2l : m2 ∈ collect_keys l := lastT_mem l (wf_left hw) (lk + 1) m2 hm2
          have hm2lt : m2 < kt := wf_keys_left hw m2 hm2l
          refine ⟨m2, ?_, ?_⟩
          · rw [lastT, if_neg (by omega : ¬ kt = lk + 1),
              if_neg (by omega : ¬ lk + 1 ≥ kt), if_neg hln]
            exact hm2
          · rw [GoodFor, if_neg (by omega : ¬ kt = m2),
              if_neg (by omega : ¬ kt < m2),
              if_neg (show ¬ sdir false k kt from ?_)]
            · exact hgood
            · intro hs
              rcases hs with hlt | ⟨hfalse, _⟩
              · omega
              · simp at hfalse

theorem sdir_false_iff (k x : Int) : sdir false k x ↔ x < k := by
  simp [sdir]

theorem sdir_true_iff (k x : Int) : sdir true k x ↔ x ≤ k := by
  constructor
  · rintro (h | ⟨_, h⟩)
    · omega
    · omega
  · intro h
    by_cases he : x = k
    · exact Or.inr ⟨rfl, he⟩
    · exact Or.inl (by omega)

/-! ### The search path returned by `find_path` -/

theorem find_path_notmem {sha : String → Int} : ∀ t : T, WF sha t →
    t ≠ T.none → ∀ k lk, k ∉ collect_keys t → lastT t k = Option.some lk →
    ∃ pre pp pl pr, find_path t k =
      .ok (pre ++ [T.node lk pp pl pr, T.none]) := by
  intro t
  induction t with
  | none => intro _ hne; exact absurd rfl hne
  | comp kc pc lh rh => intro hw; exact absurd hw wf_not_comp
  | node kt pt l r ihl ihr =>
      intro hw _ k lk hk hlast
      have hktk : kt ≠ k := by
        intro he
        exact hk ((mem_node_keys k).mpr (Or.inr (Or.inl he.symm)))
      rw [lastT, if_neg hktk] at hlast
      rw [find_path, if_neg hktk]
      by_cases hge : k ≥ kt
      · rw [if_pos hge] at hlast ⊢
        by_cases hrn : r = T.none
        · rw [if_pos hrn] at hlast
          simp only [Option.some.injEq] at hlast
          subst hlast
          refine ⟨[], pt, l, r, ?_⟩
          rw [hrn]
          rfl
        · rw [if_neg hrn] at hlast
          obtain ⟨pre, pp, pl, pr, hpath⟩ := ihr (wf_right hw) hrn k lk
            (fun hm => hk ((mem_node_keys k).mpr (Or.inr (Or.inr hm)))) hlast
          refine ⟨T.node kt pt l r :: pre, pp, pl, pr, ?_⟩
          rw [hpath]
          simp only [except_ok_bind, except_pure_eq_ok, Except.ok.injEq]
          rfl
      · rw [if_neg hge] at hlast ⊢
        by_cases hln : l = T.none
        · rw [if_pos hln] at hlast
          simp only [Option.some.injEq] at hlast
          subst hlast
          refine ⟨[], pt, l, r, ?_⟩
          rw [hln]
          rfl
        · rw [if_neg hln] at hlast
          obtain ⟨pre, pp, pl, pr, hpath⟩ := ihl (wf_left hw) hln k lk
            (fun hm => hk ((mem_node_keys k).mpr (Or.inl hm))) hlast
          refine ⟨T.node kt pt l r :: pre, pp, pl, pr, ?_⟩
          rw [hpath]
          simp only [except_ok_bind, except_pure_eq_ok, Except.ok.injEq]
          rfl

theorem find_path_mem {sha : String → Int} : ∀ t : T, WF sha t →
    ∀ k ∈ collect_keys t, ∃ pre pp pl pr, find_path t k =
      .ok (pre ++ [T.node k pp pl pr]) := by
  intro t
  induction t with
  | none => intro _ k hk; simp [collect_keys] at hk
  | comp kc pc lh rh => intro hw; exact absurd hw wf_not_comp
  | node kt pt l r ihl ihr =>
      intro hw k hk
      by_cases hktk : kt = k
      · subst hktk
        refine ⟨[], pt, l, r, ?_⟩
        rw [find_path, if_pos rfl]
        rfl
      · rw [find_path, if_neg hktk]
        rcases (mem_node_keys k).mp hk with hkl | hkk | hkr
        · have hlt : k < kt := wf_keys_left hw k hkl
          rw [if_neg (by omega : ¬ k ≥ kt)]
          obtain ⟨pre, pp, pl, pr, hpath⟩ := ihl (wf_left hw) k hkl
          refine ⟨T.node kt pt l r :: pre, pp, pl, pr, ?_⟩
          rw [hpath]
          simp only [except_ok_bind, except_pure_eq_ok, Except.ok.injEq]
          rfl
        · exact absurd hkk.symm hktk
        · have hgt : kt < k := wf_keys_right hw k hkr
          rw [if_pos (by omega : k ≥ kt)]
          obtain ⟨pre, pp, pl, pr, hpath⟩ := ihr (wf_right hw) k hkr
          refine ⟨T.node kt pt l r :: pre, pp, pl, pr, ?_⟩
          rw [hpath]
          simp only [except_ok_bind, except_pure_eq_ok, Except.ok.injEq]
          rfl

theorem reverse_pair_append {pre : List T} {a b : T} :
    (pre ++ [a, b]).reverse = b :: a :: pre.reverse := by
  simp

theorem reverse_single_append {pre : List T} {a : T} :
    (pre ++ [a]).reverse = a :: pre.reverse := by
  simp

theorem prove_exclusion_eq {sha : String → Int} {t : T} {k lk : Int}
    (hw : WF sha t) (hne : t ≠ T.none) (hk : k ∉ collect_keys t)
    (hlast : lastT t k = Option.some lk) :
    prove_exclusion sha t k = prove_inclusion sha t lk := by
  obtain ⟨pre, pp, pl, pr, hpath⟩ := find_path_notmem t hw hne k lk hk hlast
  rw [prove_exclusion, hpath]
  simp only [except_ok_bind]
  rw [reverse_pair_append]
  rfl

theorem prove_exclusion_mem_err {sha : String → Int} {t : T} {k : Int}
    (hw : WF sha t) (hk : k ∈ collect_keys t) :
    prove_exclusion sha t k = .error .keyInTree := by
  obtain ⟨pre, pp, pl, pr, hpath⟩ := find_path_mem t hw k hk
  rw [prove_exclusion, hpath]
  simp only [except_ok_bind]
  rw [reverse_single_append]
  rfl

theorem insert_proof_mem_err {sha : String → Int} {t : T} {k : Int}
    (hw : WF sha t) (hk : k ∈ collect_keys t) :
    insert_proof sha t k = .error .keyInTree := by
  obtain ⟨pre, pp, pl, pr, hpath⟩ := find_path_mem t hw k hk
  rw [insert_proof, hpath]
  simp only [except_ok_bind]
  rw [reverse_single_append]
  rfl

theorem insert_proof_eq {sha : String → Int} {t : T} {k lk : Int}
    (hw : WF sha t) (hne : t ≠ T.none) (hk : k ∉ collect_keys t)
    (hlast : lastT t k = Option.some lk) :
    insert_proof sha t k =
      (prove_exclusion sha t (lk + 1)).bind (fun proof =>
        if merkleRoot t = merkleRoot proof then pure proof
        else .error .assertionFailed) := by
  obtain ⟨pre, pp, pl, pr, hpath⟩ := find_path_notmem t hw hne k lk hk hlast
  rw [insert_proof, hpath]
  simp only [except_ok_bind]
  rw [reverse_pair_append]
  rfl

theorem remove_proof_eq {sha : String → Int} {t : T} {k : Int}
    (hw : WF sha t) (hk : k ∈ collect_keys t) :
    remove_proof sha t k =
      (prove_exclusion sha t (k + 1)).bind (fun p1 =>
        (prove_exclusion sha t (k - 1)).bind (fun p2 =>
          (join_proofs [p1, p2]).bind (fun proof =>
            if merkleRoot t = merkleRoot proof then pure proof
            else .error .assertionFailed))) := by
  obtain ⟨pre, pp, pl, pr, hpath⟩ := find_path_mem t hw k hk
  rw [remove_proof, hpath]
  simp only [except_ok_bind]
  rw [reverse_single_append]
  rfl

/-! ### Exclusion proofs reveal the split path -/

theorem prove_exclusion_pathreg {sha : String → Int} {t : T} {q k : Int}
    {eqL : Bool} (hw : WF sha t) (hne : t ≠ T.none)
    (hq : q ∉ collect_keys t)
    (hdir : ∀ x ∈ collect_keys t, (x ≤ q ↔ sdir eqL k x)) :
    ∃ p, prove_exclusion sha t q = .ok p ∧ Covers sha p t ∧
      SplitPathReg eqL k p := by
  obtain ⟨m, hlast⟩ := lastT_some t hw hne q hq
  have hgood : GoodFor eqL k t m := goodfor_of_search t hw hq hdir m hlast
  have hmmem : m ∈ collect_keys t := lastT_mem t hw q m hlast
  obtain ⟨p, hpi, hcov, _, hcp⟩ := prove_inclusion_spec hw hmmem
  refine ⟨p, ?_, hcov, pathreg_of_goodfor t hw m p hgood hcp⟩
  rw [prove_exclusion_eq hw hne hq hlast]
  exact hpi

theorem prove_exclusion_spec {sha : String → Int} {t : T} {k : Int}
    (hw : WF sha t) (hne : t ≠ T.none) (hk : k ∉ collect_keys t) :
    ∃ p, prove_exclusion sha t k = .ok p ∧ Covers sha p t ∧
      find p k = .ok Option.none := by
  have hdir : ∀ x ∈ collect_keys t, (x ≤ k ↔ sdir false k x) := by
    intro x hx
    rw [sdir_false_iff]
    have hne2 : x ≠ k := fun he => hk (he ▸ hx)
    omega
  obtain ⟨p, hok, hcov, hreg⟩ := prove_exclusion_pathreg hw hne hk hdir
  refine ⟨p, hok, hcov, ?_⟩
  refine find_none_of_pathreg p hreg ?_
  intro hmem
  exact hk (covers_collect hcov hmem)

/-! ### Joining proofs of the same tree -/

theorem join_covers {sha : String → Int} : ∀ a t : T, Covers sha a t →
    ∀ b, Covers sha b t → Covers sha (join_two_proofs a b) t := by
  intro a t hca
  induction hca with
  | none =>
      intro b hcb
      have hb := covers_none_inv hcb
      subst hb
      exact Covers.none
  | @comp kk pp ll rr hp =>
      intro b hcb
      cases hcb with
      | comp hp2 => exact Covers.comp hp
      | node hbl hbr =>
          simp only [join_two_proofs]
          exact Covers.node hbl hbr
  | @node kk pp ll rr l2 r2 hcl hcr ihl ihr =>
      intro b hcb
      cases hcb with
      | comp hp2 =>
          simp only [join_two_proofs]
          exact Covers.node hcl hcr
      | node hbl hbr =>
          simp only [join_two_proofs]
          exact Covers.node (ihl _ hbl) (ihr _ hbr)

theorem join_pathreg_left {sha : String → Int} {eqL : Bool} {k : Int} :
    ∀ a t : T, Covers sha a t → ∀ b, Covers sha b t →
    SplitPathReg eqL k a → SplitPathReg eqL k (join_two_proofs a b) := by
  intro a t hca
  induction hca with
  | none =>
      intro b hcb _
      have hb := covers_none_inv hcb
      subst hb
      trivial
  | comp hp =>
      intro b hcb hreg
      exact absurd hreg (by simp [SplitPathReg])
  | @node kk pp ll rr l2 r2 hcl hcr ihl ihr =>
      intro b hcb hreg
      cases hcb with
      | comp hp2 =>
          simp only [join_two_proofs]
          exact hreg
      | @node _ _ _ _ lb rb hbl hbr =>
          simp only [join_two_proofs]
          rw [SplitPathReg] at hreg ⊢
          by_cases hc : sdir eqL k kk
          · rw [if_pos hc] at hreg ⊢
            exact ihr rb hbr hreg
          · rw [if_neg hc] at hreg ⊢
            exact ihl lb hbl hreg

theorem join_pathreg_right {sha : String → Int} {eqL : Bool} {k : Int} :
    ∀ a t : T, Covers sha a t → ∀ b, Covers sha b t →
    SplitPathReg eqL k b → SplitPathReg eqL k (join_two_proofs a b) := by
  intro a t hca
  induction hca with
  | none =>
      intro b hcb _
      have hb := covers_none_inv hcb
      subst hb
      trivial
  | comp hp =>
      intro b hcb hreg
      cases hcb with
      | comp hp2 => exact absurd hreg (by simp [SplitPathReg])
      | node hbl hbr =>
          simp only [join_two_proofs]
          exact hreg
  | @node kk pp ll rr l2 r2 hcl hcr ihl ihr =>
      intro b hcb hreg
      cases hcb with
      | comp hp2 => exact absurd hreg (by simp [SplitPathReg])
      | @node _ _ _ _ lb rb hbl hbr =>
          simp only [join_two_proofs]
          rw [SplitPathReg] at hreg ⊢
          by_cases hc : sdir eqL k kk
          · rw [if_pos hc] at hreg ⊢
            exact ihr rb hbr hreg
          · rw [if_neg hc] at hreg ⊢
            exact ihl lb hbl hreg

theorem join_proofs_pair {sha : String → Int} {a b t : T}
    (hca : Covers sha a t) (hcb : Covers sha b t) :
    join_proofs [a, b] = .ok (join_two_proofs a b) := by
  have hra : merkleRoot a = merkleRoot t := covers_merkleRoot hca
  have hrb : merkleRoot b = merkleRoot t := covers_merkleRoot hcb
  have hrj : merkleRoot (join_two_proofs a b) = merkleRoot t :=
    covers_merkleRoot (join_covers a t hca b hcb)
  rw [join_proofs]
  rw [if_pos (by simp [hra, hrb])]
  simp only [List.foldl]
  rw [if_pos (by rw [hrj, hra])]
  rfl

/-! ### A split-true path survives a split-false -/

theorem pathreg_true_split {k : Int} : ∀ a L R : T,
    SplitPathReg true k a → split a k false = .ok (L, R) →
    SplitPathReg true k R := by
  intro a
  induction a with
  | none =>
      intro L R _ h
      simp only [split, except_pure_eq_ok, Except.ok.injEq, Prod.mk.injEq] at h
      rw [← h.2]
      trivial
  | comp kc pc lh rh =>
      intro L R hreg _
      exact absurd hreg (by simp [SplitPathReg])
  | node kt pt l r ihl ihr =>
      intro L R hreg h
      rw [SplitPathReg] at hreg
      rcases split_node_inv h with ⟨hc, L1, R1, hs, hL, hR⟩ |
        ⟨hc, L1, R1, hs, hL, hR⟩
      · have hlt : kt < k := by
          rcases hc with hlt | ⟨hfalse, _⟩
          · exact hlt
          · simp at hfalse
        rw [if_pos ((sdir_true_iff k kt).mpr (by omega))] at hreg
        rw [hR]
        exact ihr L1 R1 hreg hs
      · have hge : k ≤ kt := by
          by_contra hgt
          exact hc (Or.inl (by omega))
        rw [hR, SplitPathReg]
        by_cases heq : kt = k
        · rw [if_pos ((sdir_true_iff k kt).mpr (by omega))] at hreg ⊢
          exact hreg
        · have hgt : k < kt := by omega
          rw [if_neg (fun hs2 => by
            rw [sdir_true_iff] at hs2
            omega)] at hreg ⊢
          exact ihl L1 R1 hreg hs

theorem wf_node_shape {sha : String → Int} {t : T} (hw : WF sha t)
    (hne : t ≠ T.none) : ∃ k p l r, t = T.node k p l r := by
  cases t with
  | none => exact absurd rfl hne
  | comp kc pc lh rh => exact absurd hw wf_not_comp
  | node k p l r => exact ⟨k, p, l, r, rfl⟩

theorem keys_ne_none {t : T} {k : Int} (hk : k ∈ collect_keys t) :
    t ≠ T.none := by
  intro he
  rw [he] at hk
  simp [collect_keys] at hk

/-! ### Replaying an insert or remove on a compressed proof -/

theorem insert_pieces {sha : String → Int} {t : T} (hw : WF sha t) {k : Int}
    (hk : k ∉ collect_keys t) (hinj : PrioInj sha (collect_keys t ∪ {k})) :
    ∃ L R m res, split t k false = .ok (L, R) ∧ WF sha L ∧ WF sha R ∧
      find R k = .ok Option.none ∧
      merge (T.node k (to_priority sha k) T.none T.none) R = .ok m ∧
      merge L m = .ok res ∧ WF sha res ∧
      collect_keys res = collect_keys t ∪ {k} ∧
      (∀ y ∈ collect_keys R, k < y) := by
  obtain ⟨L, R, hs, hwL, hwR, hmL, hmR⟩ := split_spec hw k false
  have hsubL : collect_keys L ⊆ collect_keys t := fun x hx => ((hmL x).mp hx).1
  have hsubR : collect_keys R ⊆ collect_keys t := fun x hx => ((hmR x).mp hx).1
  have hfind : find R k = .ok Option.none :=
    find_not_mem hwR k (fun hkR => hk (hsubR hkR))
  have hnew : WF sha (T.node k (to_priority sha k) T.none T.none) := by
    refine WF.node WF.none WF.none ?_ ?_ ?_
    all_goals intro x hx
    all_goals simp [collect_keys] at hx
  have hRgt : ∀ y ∈ collect_keys R, k < y := by
    intro y hy
    obtain ⟨hyt, hyP⟩ := (hmR y).mp hy
    rw [splitLeftP_false] at hyP
    have hyk : y ≠ k := fun he => hk (he ▸ hyt)
    omega
  have hLlt : ∀ y ∈ collect_keys L, y < k := by
    intro y hy
    have hyP := ((hmL y).mp hy).2
    rwa [splitLeftP_false] at hyP
  have hsubIns : ∀ s : Finset Int, (∀ x ∈ s, x ∈ collect_keys t ∨ x = k) →
      s ⊆ collect_keys t ∪ {k} := by
    intro s hs2 x hx
    rcases hs2 x hx with h | h
    · exact Finset.mem_union.mpr (Or.inl h)
    · exact Finset.mem_union.mpr (Or.inr (by simp [h]))
  obtain ⟨m, hm, hwm, hmemm⟩ := merge_spec
    (T.node k (to_priority sha k) T.none T.none) R hnew hwR
    (by
      intro x hx y hy
      rw [mem_node_keys x] at hx
      simp [collect_keys] at hx
      exact hx ▸ hRgt y hy)
    (by
      refine prioinj_mono ?_ hinj
      refine hsubIns _ ?_
      intro x hx
      rcases Finset.mem_union.mp hx with hx | hx
      · rw [mem_node_keys x] at hx
        simp [collect_keys] at hx
        exact Or.inr hx
      · exact Or.inl (hsubR hx))
  obtain ⟨res, hres, hwres, hmemres⟩ := merge_spec L m hwL hwm
    (by
      intro x hx y hy
      rcases (hmemm y).mp hy with hy | hy
      · rw [mem_node_keys y] at hy
        simp [collect_keys] at hy
        exact hy ▸ hLlt x hx
      · exact lt_trans (hLlt x hx) (hRgt y hy))
    (by
      refine prioinj_mono ?_ hinj
      refine hsubIns _ ?_
      intro x hx
      rcases Finset.mem_union.mp hx with hx | hx
      · exact Or.inl (hsubL hx)
      · rcases (hmemm x).mp hx with hx | hx
        · rw [mem_node_keys x] at hx
          simp [collect_keys] at hx
          exact Or.inr hx
        · exact Or.inl (hsubR hx))
  refine ⟨L, R, m, res, hs, hwL, hwR, hfind, hm, hres, hwres, ?_, hRgt⟩
  ext x
  rw [hmemres x, Finset.mem_union, Finset.mem_singleton]
  rw [hmemm x, mem_node_keys x]
  simp only [collect_keys, Finset.not_mem_empty]
  constructor
  · rintro (hx | (hx | hx | hx) | hx)
    · exact Or.inl (hsubL hx)
    · simp at hx
    · exact Or.inr hx
    · simp at hx
    · exact Or.inl (hsubR hx)
  · rintro (hx | hx)
    · by_cases hxk : x < k
      · exact Or.inl ((hmL x).mpr ⟨hx, (splitLeftP_false k x).mpr hxk⟩)
      · refine Or.inr (Or.inr ((hmR x).mpr ⟨hx, ?_⟩))
        rw [splitLeftP_false]
        omega
    · exact Or.inr (Or.inl (Or.inr (Or.inl hx)))

theorem insert_replay {sha : String → Int} {t proof : T} {k : Int}
    (hw : WF sha t) (hk : k ∉ collect_keys t)
    (hinj : PrioInj sha (collect_keys t ∪ {k}))
    (hcov : Covers sha proof t) (hreg : SplitPathReg false k proof) :
    ∃ t2 p2, insert sha t k = .ok t2 ∧ insert sha proof k = .ok p2 ∧
      Covers sha p2 t2 ∧ WF sha t2 ∧
      collect_keys t2 = collect_keys t ∪ {k} := by
  obtain ⟨L, R, m, res, hs, hwL, hwR, hfind, hm, hres, hwres, hkeys, hRgt⟩ :=
    insert_pieces hw hk hinj
  obtain ⟨Lp, Rp, hps⟩ := split_of_pathreg proof hreg
  obtain ⟨hcovL, hcovR⟩ := split_covers proof t hcov k false L R Lp Rp hs hps
  obtain ⟨hRsL, hLsR⟩ := split_spines proof Lp Rp hps
  have hfindp : find Rp k = .ok Option.none := by
    refine find_lspine_none Rp hLsR ?_
    intro x hx
    exact hRgt x (covers_collect hcovR hx)
  have hnew : WF sha (T.node k (to_priority sha k) T.none T.none) := by
    refine WF.node WF.none WF.none ?_ ?_ ?_
    all_goals intro x hx
    all_goals simp [collect_keys] at hx
  have hnewR : RSpineReg (T.node k (to_priority sha k) T.none T.none) := by
    simp [RSpineReg]
  have hnewL : LSpineReg (T.node k (to_priority sha k) T.none T.none) := by
    simp [LSpineReg]
  obtain ⟨mp, hmp⟩ := merge_spines
    (T.node k (to_priority sha k) T.none T.none) Rp hnewR hLsR
  have hcovm : Covers sha mp m :=
    merge_covers (T.node k (to_priority sha k) T.none T.none) R
      (T.node k (to_priority sha k) T.none T.none) Rp m mp
      (covers_refl_of_wf hnew) hcovR hm hmp
  have hLsm : LSpineReg mp := merge_lspine
    (T.node k (to_priority sha k) T.none T.none) Rp hnewL hLsR mp hmp
  obtain ⟨p2, hp2⟩ := merge_spines Lp mp hRsL hLsm
  have hcovres : Covers sha p2 res :=
    merge_covers L m Lp mp res p2 hcovL hcovm hres hp2
  exact ⟨res, p2, insert_eq_ok hs hfind hm hres,
    insert_eq_ok hps hfindp hmp hp2, hcovres, hwres, hkeys⟩

theorem remove_pieces {sha : String → Int} {t : T} (hw : WF sha t) {k : Int}
    (hk : k ∈ collect_keys t) (hinj : PrioInj sha (collect_keys t)) :
    ∃ L R L2 R2 res, split t k false = .ok (L, R) ∧ R ≠ T.none ∧
      split R k true = .ok (L2, R2) ∧ L2 ≠ T.none ∧
      merge L R2 = .ok res ∧ WF sha res ∧
      collect_keys res = (collect_keys t).erase k ∧
      WF sha L ∧ WF sha R ∧ WF sha L2 ∧ WF sha R2 ∧
      k ∈ collect_keys R ∧ k ∈ collect_keys L2 := by
  obtain ⟨L, R, hs, hwL, hwR, hmL, hmR⟩ := split_spec hw k false
  have hsubL : collect_keys L ⊆ collect_keys t := fun x hx => ((hmL x).mp hx).1
  have hsubR : collect_keys R ⊆ collect_keys t := fun x hx => ((hmR x).mp hx).1
  have hkR : k ∈ collect_keys R := by
    refine (hmR k).mpr ⟨hk, ?_⟩
    rw [splitLeftP_false]
    omega
  have hRne : R ≠ T.none := keys_ne_none hkR
  obtain ⟨L2, R2, hs2, hwL2, hwR2, hmL2, hmR2⟩ := split_spec hwR k true
  have hkL2 : k ∈ collect_keys L2 := by
    refine (hmL2 k).mpr ⟨hkR, ?_⟩
    rw [splitLeftP_true]
  have hL2ne : L2 ≠ T.none := keys_ne_none hkL2
  have hR2gt : ∀ y ∈ collect_keys R2, k < y := by
    intro y hy
    have h2 := ((hmR2 y).mp hy).2
    rw [splitLeftP_true] at h2
    omega
  obtain ⟨res, hres, hwres, hmemres⟩ := merge_spec L R2 hwL hwR2
    (by
      intro x hx y hy
      have hx2 := ((hmL x).mp hx).2
      rw [splitLeftP_false] at hx2
      exact lt_trans hx2 (hR2gt y hy))
    (by
      refine prioinj_mono ?_ hinj
      intro x hx
      rcases Finset.mem_union.mp hx with hx | hx
      · exact hsubL hx
      · exact hsubR (((hmR2 x).mp hx).1))
  refine ⟨L, R, L2, R2, res, hs, hRne, hs2, hL2ne, hres, hwres, ?_,
    hwL, hwR, hwL2, hwR2, hkR, hkL2⟩
  ext x
  rw [hmemres x, Finset.mem_erase]
  constructor
  · rintro (hx | hx)
    · obtain ⟨hxt, hxP⟩ := (hmL x).mp hx
      rw [splitLeftP_false] at hxP
      exact ⟨by omega, hxt⟩
    · refine ⟨by have := hR2gt x hx; omega, hsubR (((hmR2 x).mp hx).1)⟩
  · rintro ⟨hxk, hxt⟩
    by_cases hlt : x < k
    · exact Or.inl ((hmL x).mpr ⟨hxt, (splitLeftP_false k x).mpr hlt⟩)
    · have hgt : k < x := by omega
      refine Or.inr ((hmR2 x).mpr ⟨?_, ?_⟩)
      · refine (hmR x).mpr ⟨hxt, ?_⟩
        rw [splitLeftP_false]
        omega
      · rw [splitLeftP_true]
        omega

theorem remove_replay {sha : String → Int} {t proof : T} {k : Int}
    (hw : WF sha t) (hk : k ∈ collect_keys t)
    (hinj : PrioInj sha (collect_keys t)) (hcov : Covers sha proof t)
    (hregF : SplitPathReg false k proof) (hregT : SplitPathReg true k proof) :
    ∃ t2 p2, remove t k = .ok t2 ∧ remove proof k = .ok p2 ∧
      Covers sha p2 t2 ∧ WF sha t2 ∧
      collect_keys t2 = (collect_keys t).erase k := by
  obtain ⟨L, R, L2, R2, res, hs, hRne, hs2, hL2ne, hres, hwres, hkeys,
    hwL, hwR, hwL2, hwR2, hkR, hkL2⟩ := remove_pieces hw hk hinj
  obtain ⟨Lp, Rp, hps⟩ := split_of_pathreg proof hregF
  obtain ⟨hcovL, hcovR⟩ := split_covers proof t hcov k false L R Lp Rp hs hps
  obtain ⟨hRsL, _⟩ := split_spines proof Lp Rp hps
  have hRpne : Rp ≠ T.none := by
    obtain ⟨kR, pR, lR, rR, hReq⟩ := wf_node_shape hwR (keys_ne_none hkR)
    rw [hReq] at hcovR
    exact covers_node_ne_none hcovR
  have hregTR : SplitPathReg true k Rp := pathreg_true_split proof Lp Rp hregT hps
  obtain ⟨L2p, R2p, hps2⟩ := split_of_pathreg Rp hregTR
  obtain ⟨hcovL2, hcovR2⟩ := split_covers Rp R hcovR k true L2 R2 L2p R2p hs2 hps2
  obtain ⟨_, hLsR2⟩ := split_spines Rp L2p R2p hps2
  have hL2pne : L2p ≠ T.none := by
    obtain ⟨kL, pL, lL, rL, hLeq⟩ := wf_node_shape hwL2 (keys_ne_none hkL2)
    rw [hLeq] at hcovL2
    exact covers_node_ne_none hcovL2
  obtain ⟨p2, hp2⟩ := merge_spines Lp R2p hRsL hLsR2
  have hcovres : Covers sha p2 res :=
    merge_covers L R2 Lp R2p res p2 hcovL hcovR2 hres hp2
  exact ⟨res, p2, remove_eq_ok hs hRne hs2 hL2ne hres,
    remove_eq_ok hps hRpne hps2 hL2pne hp2, hcovres, hwres, hkeys⟩

@[simp] theorem except_bind_ok_eq {α β : Type} (a : α) (f : α → Except Err β) :
    Except.bind (Except.ok a) f = f a := rfl

@[simp] theorem except_bind_error_eq {α β : Type} (e : Err)
    (f : α → Except Err β) : Except.bind (Except.error e) f = .error e := rfl

theorem remove_proof_notmem_err {sha : String → Int} {t : T} {k lk : Int}
    (hw : WF sha t) (hne : t ≠ T.none) (hk : k ∉ collect_keys t)
    (hlast : lastT t k = Option.some lk) :
    remove_proof sha t k = .error .keyNotInTree := by
  obtain ⟨pre, pp, pl, pr, hpath⟩ := find_path_notmem t hw hne k lk hk hlast
  rw [remove_proof, hpath]
  simp only [except_ok_bind]
  rw [reverse_pair_append]

theorem insert_proof_ok_spec {sha : String → Int} {t : T} {k : Int} {proof : T}
    (hw : WF sha t) (h : insert_proof sha t k = .ok proof) :
    k ∉ collect_keys t ∧ Covers sha proof t ∧ SplitPathReg false k proof := by
  by_cases hne : t = T.none
  · subst hne
    rw [show insert_proof sha T.none k = .error .indexError from rfl] at h
    simp at h
  · by_cases hkmem : k ∈ collect_keys t
    · rw [insert_proof_mem_err hw hkmem] at h
      simp at h
    · obtain ⟨lk, hlast⟩ := lastT_some t hw hne k hkmem
      rw [insert_proof_eq hw hne hkmem hlast] at h
      by_cases hq : (lk + 1) ∈ collect_keys t
      · rw [prove_exclusion_mem_err hw hq] at h
        simp [Except.bind] at h
      · obtain ⟨m2, hm2last, hgood⟩ := goodfor_insert t hw k lk hkmem hlast hq
        have hm2mem : m2 ∈ collect_keys t := lastT_mem t hw (lk + 1) m2 hm2last
        obtain ⟨p, hpi, hcov, _, hcp⟩ := prove_inclusion_spec hw hm2mem
        have hreg : SplitPathReg false k p :=
          pathreg_of_goodfor t hw m2 p hgood hcp
        rw [prove_exclusion_eq hw hne hq hm2last, hpi] at h
        rw [except_bind_ok_eq] at h
        rw [if_pos (covers_merkleRoot hcov).symm] at h
        have hpe : p = proof := Except.ok.inj h
        subst hpe
        exact ⟨hkmem, hcov, hreg⟩

theorem remove_proof_ok_spec {sha : String → Int} {t : T} {k : Int} {proof : T}
    (hw : WF sha t) (h : remove_proof sha t k = .ok proof) :
    k ∈ collect_keys t ∧ Covers sha proof t ∧
      SplitPathReg false k proof ∧ SplitPathReg true k proof := by
  by_cases hne : t = T.none
  · subst hne
    rw [show remove_proof sha T.none k = .error .keyNotInTree from rfl] at h
    simp at h
  · by_cases hkmem : k ∈ collect_keys t
    · rw [remove_proof_eq hw hkmem] at h
      by_cases hq1 : (k + 1) ∈ collect_keys t
      · rw [prove_exclusion_mem_err hw hq1] at h
        simp at h
      · have hdir1 : ∀ x ∈ collect_keys t, (x ≤ k + 1 ↔ sdir true k x) := by
          intro x hx
          rw [sdir_true_iff]
          have hne1 : x ≠ k + 1 := fun he => hq1 (he ▸ hx)
          omega
        obtain ⟨p1, hp1ok, hcov1, hreg1⟩ :=
          prove_exclusion_pathreg hw hne hq1 hdir1
        rw [hp1ok, except_bind_ok_eq] at h
        by_cases hq2 : (k - 1) ∈ collect_keys t
        · rw [prove_exclusion_mem_err hw hq2] at h
          simp at h
        · have hdir2 : ∀ x ∈ collect_keys t, (x ≤ k - 1 ↔ sdir false k x) := by
            intro x hx
            rw [sdir_false_iff]
            omega
          obtain ⟨p2, hp2ok, hcov2, hreg2⟩ :=
            prove_exclusion_pathreg hw hne hq2 hdir2
          rw [hp2ok, except_bind_ok_eq] at h
          rw [join_proofs_pair hcov1 hcov2, except_bind_ok_eq] at h
          have hcovj : Covers sha (join_two_proofs p1 p2) t :=
            join_covers p1 t hcov1 p2 hcov2
          rw [if_pos (covers_merkleRoot hcovj).symm] at h
          have hpe : join_two_proofs p1 p2 = proof := Except.ok.inj h
          subst hpe
          refine ⟨hkmem, hcovj, ?_, ?_⟩
          · exact join_pathreg_right p1 t hcov1 p2 hcov2 hreg2
          · exact join_pathreg_left p1 t hcov1 p2 hcov2 hreg1
    · obtain ⟨lk, hlast⟩ := lastT_some t hw hne k hkmem
      rw [remove_proof_notmem_err hw hne hkmem hlast] at h
      simp at h

theorem join_proofs_single (p : T) : join_proofs [p] = .ok p := by
  rw [join_proofs]
  simp

/-! ### Running a sequence of single-element steps on the tree and on the
accumulator, as in spec scenarios S1/S2 and testable property 6 -/

/-- One user-level mutation. -/
inductive Op : Type where
  | ins (el : PyVal) : Op
  | rem (el : PyVal) : Op
deriving DecidableEq, Repr

/-- `tree.insert(el)` / `tree.remove(el)` with `prove=True`, via the
`Treaccp` façade: returns the new root and the freshly produced proof. -/
def treeStep (sha : String → Int) (t : T) : Op → Except Err (T × T)
  | .ins el => treaccp_insert_many sha t [el]
  | .rem el => treaccp_remove_many sha t [el]

/-- `acc.insert(el, proof)` / `acc.remove(el, proof)`: returns the new
digest and the updated compressed tree. -/
def accStep (sha : String → Int) (d : Digest) (op : Op) (pf : T) :
    Except Err (Digest × T) :=
  match op with
  | .ins el => acc_insert_many sha d [el] pf
  | .rem el => acc_remove_many sha d [el] pf

/-- Run the whole sequence on the tree, recording after each step the new
root and the proof that step produced. -/
def runTree (sha : String → Int) : T → List Op → Except Err (List (T × T))
  | _, [] => pure []
  | t, op :: ops => do
      let (t2, pf) ← treeStep sha t op
      let rest ← runTree sha t2 ops
      pure ((t2, pf) :: rest)

/-- Run the sequence on the accumulator, each step consuming the proof the
corresponding tree step produced; record the digest after each step. -/
def runAcc (sha : String → Int) : Digest → List (Op × T) → Except Err (List Digest)
  | _, [] => pure []
  | d, (op, pf) :: rest => do
      let (d2, _) ← accStep sha d op pf
      let ds ← runAcc sha d2 rest
      pure (d2 :: ds)

/-- The key an operation may introduce (inserts only). -/
def opKeys (sha : String → Int) : Op → Finset Int
  | .ins el => {to_key sha el}
  | .rem _ => ∅

/-- All keys the sequence may introduce. -/
def opsKeys (sha : String → Int) : List Op → Finset Int
  | [] => ∅
  | op :: ops => opKeys sha op ∪ opsKeys sha ops

theorem node_insert_many_single {sha : String → Int} {t : T} {k : Int}
    {t2 pf : T} (h : node_insert_many sha t [k] = .ok (t2, pf)) :
    insert_proof sha t k = .ok pf ∧ insert sha t k = .ok t2 := by
  unfold node_insert_many at h
  cases hip : insert_proof sha t k with
  | error e =>
      rw [List.mapM_cons, hip] at h
      simp at h
  | ok pf0 =>
      rw [List.mapM_cons, hip] at h
      simp only [except_ok_bind, List.mapM_nil] at h
      rw [show ((pure [] : Except Err (List T)) >>=
        fun xs => pure (pf0 :: xs)) = pure [pf0] from rfl] at h
      simp only [except_pure_eq_ok, except_ok_bind] at h
      rw [join_proofs_single] at h
      simp only [except_ok_bind] at h
      cases hins : insert sha t k with
      | error e =>
          rw [List.foldlM_cons, hins] at h
          simp at h
      | ok t2b =>
          rw [List.foldlM_cons, hins] at h
          simp only [except_ok_bind, List.foldlM_nil, except_pure_eq_ok,
            Except.ok.injEq, Prod.mk.injEq] at h
          exact ⟨by rw [h.2], by rw [h.1]⟩

theorem node_remove_many_single {sha : String → Int} {t : T} {k : Int}
    {t2 pf : T} (h : node_remove_many sha t [k] = .ok (t2, pf)) :
    remove_proof sha t k = .ok pf ∧ remove t k = .ok t2 := by
  unfold node_remove_many at h
  cases hip : remove_proof sha t k with
  | error e =>
      rw [List.mapM_cons, hip] at h
      simp at h
  | ok pf0 =>
      rw [List.mapM_cons, hip] at h
      simp only [except_ok_bind, List.mapM_nil] at h
      rw [show ((pure [] : Except Err (List T)) >>=
        fun xs => pure (pf0 :: xs)) = pure [pf0] from rfl] at h
      simp only [except_pure_eq_ok, except_ok_bind] at h
      rw [join_proofs_single] at h
      simp only [except_ok_bind] at h
      cases hrem : remove t k with
      | error e =>
          rw [List.foldlM_cons, hrem] at h
          simp at h
      | ok t2b =>
          rw [List.foldlM_cons, hrem] at h
          simp only [except_ok_bind, List.foldlM_nil, except_pure_eq_ok,
            Except.ok.injEq, Prod.mk.injEq] at h
          exact ⟨by rw [h.2], by rw [h.1]⟩

theorem acc_insert_many_single_eval {sha : String → Int} {d : Digest}
    {el : PyVal} {pf p2 : T} (hne : pf ≠ T.none) (hd : d = merkleRoot pf)
    (hins : insert sha pf (to_key sha el) = .ok p2) (hne2 : p2 ≠ T.none) :
    acc_insert_many sha d [el] pf = .ok (merkleRoot p2, p2) := by
  rw [acc_insert_many, if_neg hne, if_neg (by simp [hd])]
  cases p2 with
  | none => exact absurd rfl hne2
  | comp kc pc lh rh =>
      rw [List.foldlM_cons, hins]
      rfl
  | node k2 q2 l2 r2 =>
      rw [List.foldlM_cons, hins]
      rfl

theorem acc_remove_many_single_eval {sha : String → Int} {d : Digest}
    {el : PyVal} {pf p2 : T} (hne : pf ≠ T.none) (hd : d = merkleRoot pf)
    (hrem : remove pf (to_key sha el) = .ok p2) (hne2 : p2 ≠ T.none) :
    acc_remove_many sha d [el] pf = .ok (merkleRoot p2, p2) := by
  rw [acc_remove_many, if_neg hne, if_neg (by simp [hd])]
  cases p2 with
  | none => exact absurd rfl hne2
  | comp kc pc lh rh =>
      rw [List.foldlM_cons, hrem]
      rfl
  | node k2 q2 l2 r2 =>
      rw [List.foldlM_cons, hrem]
      rfl

theorem step_replay {sha : String → Int} {t : T} {op : Op} {t2 pf : T}
    (hw : WF sha t) (hshape : t ≠ T.none)
    (hinj : PrioInj sha (collect_keys t ∪ opKeys sha op))
    (h : treeStep sha t op = .ok (t2, pf)) (hne2 : t2 ≠ T.none) :
    WF sha t2 ∧ (collect_keys t2 ⊆ collect_keys t ∪ opKeys sha op) ∧
    ∃ ct, accStep sha (merkleRoot t) op pf = .ok (merkleRoot t2, ct) := by
  obtain ⟨kt, pt, lt, rt, hteq⟩ := wf_node_shape hw hshape
  cases op with
  | ins el =>
      rw [treeStep, hteq, treaccp_insert_many] at h
      rw [show [el].map (to_key sha) = [to_key sha el] from rfl] at h
      rw [← hteq] at h
      obtain ⟨hpf, hins⟩ := node_insert_many_single h
      obtain ⟨hk, hcov, hreg⟩ := insert_proof_ok_spec hw hpf
      have hinj2 : PrioInj sha (collect_keys t ∪ {to_key sha el}) := hinj
      obtain ⟨t2b, p2, hins2, hinsp, hcov2, hwres, hkeys⟩ :=
        insert_replay hw hk hinj2 hcov hreg
      have ht2eq : t2b = t2 := Except.ok.inj (hins2.symm.trans hins)
      subst ht2eq
      refine ⟨hwres, ?_, p2, ?_⟩
      · rw [hkeys]
        intro x hx
        exact hx
      · rw [accStep]
        have hpfne : pf ≠ T.none := by
          rw [hteq] at hcov
          exact covers_node_ne_none hcov
        have hp2ne : p2 ≠ T.none := by
          obtain ⟨k2, q2, l2, r2, ht2eq⟩ := wf_node_shape hwres hne2
          rw [ht2eq] at hcov2
          exact covers_node_ne_none hcov2
        rw [acc_insert_many_single_eval hpfne (covers_merkleRoot hcov).symm
          hinsp hp2ne]
        rw [covers_merkleRoot hcov2]
  | rem el =>
      rw [treeStep, hteq, treaccp_remove_many] at h
      rw [show [el].map (to_key sha) = [to_key sha el] from rfl] at h
      rw [← hteq] at h
      obtain ⟨hpf, hrem⟩ := node_remove_many_single h
      obtain ⟨hk, hcov, hregF, hregT⟩ := remove_proof_ok_spec hw hpf
      have hinj2 : PrioInj sha (collect_keys t) := by
        refine prioinj_mono ?_ hinj
        intro x hx
        exact Finset.mem_union.mpr (Or.inl hx)
      obtain ⟨t2b, p2, hrem2, hremp, hcov2, hwres, hkeys⟩ :=
        remove_replay hw hk hinj2 hcov hregF hregT
      have ht2eq : t2b = t2 := Except.ok.inj (hrem2.symm.trans hrem)
      subst ht2eq
      refine ⟨hwres, ?_, p2, ?_⟩
      · rw [hkeys]
        intro x hx
        exact Finset.mem_union.mpr (Or.inl (Finset.mem_of_mem_erase hx))
      · rw [accStep]
        have hpfne : pf ≠ T.none := by
          rw [hteq] at hcov
          exact covers_node_ne_none hcov
        have hp2ne : p2 ≠ T.none := by
          obtain ⟨k2, q2, l2, r2, ht2eq⟩ := wf_node_shape hwres hne2
          rw [ht2eq] at hcov2
          exact covers_node_ne_none hcov2
        rw [acc_remove_many_single_eval hpfne (covers_merkleRoot hcov).symm
          hremp hp2ne]
        rw [covers_merkleRoot hcov2]

theorem run_replay {sha : String → Int} : ∀ (ops : List Op) (t : T),
    WF sha t → t ≠ T.none →
    PrioInj sha (collect_keys t ∪ opsKeys sha ops) →
    ∀ trace, runTree sha t ops = .ok trace →
    (∀ pr ∈ trace, pr.1 ≠ T.none) →
    ∃ ds, runAcc sha (merkleRoot t) (ops.zip (trace.map Prod.snd)) = .ok ds ∧
      ds = trace.map (fun pr => merkleRoot pr.1) := by
  intro ops
  induction ops with
  | nil =>
      intro t _ _ _ trace htr _
      rw [runTree] at htr
      have : trace = [] := (Except.ok.inj htr).symm
      subst this
      exact ⟨[], rfl, rfl⟩
  | cons op ops ih =>
      intro t hw hshape hinj trace htr hne
      rw [runTree] at htr
      cases hstep : treeStep sha t op with
      | error e => rw [hstep] at htr; simp at htr
      | ok pr =>
          obtain ⟨t2, pf⟩ := pr
          rw [hstep] at htr
          simp only [except_ok_bind] at htr
          cases hrest : runTree sha t2 ops with
          | error e => rw [hrest] at htr; simp at htr
          | ok rest =>
              rw [hrest] at htr
              simp only [except_ok_bind, except_pure_eq_ok,
                Except.ok.injEq] at htr
              subst htr
              have hne2 : t2 ≠ T.none := hne (t2, pf) (by simp)
              have hinj1 : PrioInj sha (collect_keys t ∪ opKeys sha op) := by
                refine prioinj_mono ?_ hinj
                intro x hx
                rcases Finset.mem_union.mp hx with hx | hx
                · exact Finset.mem_union.mpr (Or.inl hx)
                · exact Finset.mem_union.mpr
                    (Or.inr (by rw [opsKeys]; exact Finset.mem_union.mpr (Or.inl hx)))
              obtain ⟨hw2, hsub, ct, hacc⟩ :=
                step_replay hw hshape hinj1 hstep hne2
              have hinj2 : PrioInj sha (collect_keys t2 ∪ opsKeys sha ops) := by
                refine prioinj_mono ?_ hinj
                intro x hx
                rcases Finset.mem_union.mp hx with hx | hx
                · rcases Finset.mem_union.mp (hsub hx) with hx | hx
                  · exact Finset.mem_union.mpr (Or.inl hx)
                  · exact Finset.mem_union.mpr
                      (Or.inr (by rw [opsKeys]; exact Finset.mem_union.mpr (Or.inl hx)))
                · exact Finset.mem_union.mpr
                    (Or.inr (by rw [opsKeys]; exact Finset.mem_union.mpr (Or.inr hx)))
              obtain ⟨ds, hds, hdseq⟩ := ih t2 hw2 hne2 hinj2 rest hrest
                (fun pr hpr => hne pr (by simp [hpr]))
              refine ⟨merkleRoot t2 :: ds, ?_, ?_⟩
              · rw [show (op :: ops).zip (((t2, pf) :: rest).map Prod.snd) =
                  (op, pf) :: ops.zip (rest.map Prod.snd) from rfl]
                rw [runAcc, hacc]
                simp only [except_ok_bind]
                rw [hds]
                rfl
              · simp [hdseq]


/-! ### Soundness of the executable well-formedness checker -/

theorem WF_of_wfb (sha : String → Int) : ∀ t : T, wfb sha t = true → WF sha t := by
  intro t
  induction t with
  | none => intro _; exact WF.none
  | comp kc pc lh rh => intro h; exact absurd h (by simp [wfb])
  | node k p l r ihl ihr =>
      intro h
      rw [wfb] at h
      simp only [Bool.and_eq_true, decide_eq_true_eq] at h
      obtain ⟨⟨⟨⟨⟨hp, hl⟩, hr⟩, hkl⟩, hkr⟩, hprio⟩ := h
      subst hp
      exact WF.node (ihl hl) (ihr hr) hkl hkr hprio

/-! ### `is_treap` holds on every cover of a nonempty well-formed tree -/

theorem covers_none_left_inv {sha : String → Int} {t : T}
    (h : Covers sha T.none t) : t = T.none := by
  cases h
  rfl

theorem covers_rootKey {sha : String → Int} {p t : T} (h : Covers sha p t) :
    rootKey p = rootKey t := by
  cases h with
  | none => rfl
  | comp hp => rfl
  | node _ _ => rfl

theorem rootKey_mem {sha : String → Int} {t : T} (hw : WF sha t)
    (hne : t ≠ T.none) : rootKey t ∈ collect_keys t := by
  obtain ⟨k, p, l, r, he⟩ := wf_node_shape hw hne
  subst he
  exact wf_root_mem hw

theorem verify_heap_covers {sha : String → Int} : ∀ p t : T, Covers sha p t →
    WF sha t → (∀ x ∈ collect_keys t, 0 ≤ to_priority sha x) → p ≠ T.none →
    verify_heap p = .ok (to_priority sha (rootKey t)) := by
  intro p t hc
  induction hc with
  | none =>
      intro _ _ hne
      exact absurd rfl hne
  | @comp k pp l r hp =>
      intro _ _ _
      rfl
  | @node k pp l r l2 r2 hcl hcr ihl ihr =>
      intro hw hnn _
      have hpe : pp = to_priority sha k := wf_root_prior hw
      have hk0 : 0 ≤ to_priority sha k := hnn k (wf_root_mem hw)
      have hnnl : ∀ x ∈ collect_keys l, 0 ≤ to_priority sha x := fun x hx =>
        hnn x ((mem_node_keys x).mpr (Or.inl hx))
      have hnnr : ∀ x ∈ collect_keys r, 0 ≤ to_priority sha x := fun x hx =>
        hnn x ((mem_node_keys x).mpr (Or.inr (Or.inr hx)))
      have hml : ∃ vl : Int,
          (if l2 = T.none then pure (-1 : Int) else verify_heap l2) =
            Except.ok vl ∧ vl < pp := by
        by_cases hl2 : l2 = T.none
        · exact ⟨-1, by rw [if_pos hl2]; rfl, by omega⟩
        · have hlne : l ≠ T.none := fun he =>
            hl2 (by subst he; exact covers_none_inv hcl)
          refine ⟨to_priority sha (rootKey l), ?_, ?_⟩
          · rw [if_neg hl2]
            exact ihl (wf_left hw) hnnl hl2
          · have hmem := rootKey_mem (wf_left hw) hlne
            have := wf_prio_children hw (rootKey l)
              (Finset.mem_union.mpr (Or.inl hmem))
            omega
      have hmr : ∃ vr : Int,
          (if r2 = T.none then pure (-1 : Int) else verify_heap r2) =
            Except.ok vr ∧ vr < pp := by
        by_cases hr2 : r2 = T.none
        · exact ⟨-1, by rw [if_pos hr2]; rfl, by omega⟩
        · have hrne : r ≠ T.none := fun he =>
            hr2 (by subst he; exact covers_none_inv hcr)
          refine ⟨to_priority sha (rootKey r), ?_, ?_⟩
          · rw [if_neg hr2]
            exact ihr (wf_right hw) hnnr hr2
          · have hmem := rootKey_mem (wf_right hw) hrne
            have := wf_prio_children hw (rootKey r)
              (Finset.mem_union.mpr (Or.inr hmem))
            omega
      obtain ⟨vl, hml, hvl⟩ := hml
      obtain ⟨vr, hmr, hvr⟩ := hmr
      rw [verify_heap, hml]
      simp only [except_ok_bind]
      rw [hmr]
      simp only [except_ok_bind]
      rw [if_pos ⟨by omega, by omega⟩, hpe]
      rfl

theorem verify_binary_tree_covers {sha : String → Int} : ∀ p t : T,
    Covers sha p t → WF sha t → p ≠ T.none →
    verify_binary_tree p = .ok () := by
  intro p t hc
  induction hc with
  | none =>
      intro _ hne
      exact absurd rfl hne
  | comp hp =>
      intro _ _
      rfl
  | @node k pp l r l2 r2 hcl hcr ihl ihr =>
      intro hw _
      have hbl := wf_keys_left hw
      have hbr := wf_keys_right hw
      have hwl := wf_left hw
      have hwr := wf_right hw
      cases hcl with
      | none =>
          cases hcr with
          | none => rfl
          | @comp kr prr lrr rrr hpr =>
              have hkr : k < kr := hbr kr (wf_root_mem hwr)
              rw [verify_binary_tree.eq_def]
              dsimp only []
              simp only [except_pure_eq_ok, except_ok_bind]
              rw [if_pos hkr]
          | @node kr prr lrr rrr l2r r2r hclr hcrr =>
              have hkr : k < kr := hbr kr (wf_root_mem hwr)
              have hrec : verify_binary_tree (T.node kr prr l2r r2r) = .ok () :=
                ihr hwr (by simp)
              rw [verify_binary_tree.eq_def]
              dsimp only []
              simp only [except_pure_eq_ok, except_ok_bind]
              rw [if_pos hkr]
              exact hrec
      | @comp kl pll lll rll hpl =>
          have hkl : kl < k := hbl kl (wf_root_mem hwl)
          cases hcr with
          | none =>
              rw [verify_binary_tree.eq_def]
              dsimp only []
              rw [if_pos hkl]
              rfl
          | @comp kr prr lrr rrr hpr =>
              have hkr : k < kr := hbr kr (wf_root_mem hwr)
              rw [verify_binary_tree.eq_def]
              dsimp only []
              rw [if_pos hkl]
              simp only [except_pure_eq_ok, except_ok_bind]
              rw [if_pos hkr]
          | @node kr prr lrr rrr l2r r2r hclr hcrr =>
              have hkr : k < kr := hbr kr (wf_root_mem hwr)
              have hrec : verify_binary_tree (T.node kr prr l2r r2r) = .ok () :=
                ihr hwr (by simp)
              rw [verify_binary_tree.eq_def]
              dsimp only []
              rw [if_pos hkl]
              simp only [except_pure_eq_ok, except_ok_bind]
              rw [if_pos hkr]
              exact hrec
      | @node kl pll lll rll l2l r2l hcll hcrl =>
          have hkl : kl < k := hbl kl (wf_root_mem hwl)
          have hrecl : verify_binary_tree (T.node kl pll l2l r2l) = .ok () :=
            ihl hwl (by simp)
          cases hcr with
          | none =>
              rw [verify_binary_tree.eq_def]
              dsimp only []
              rw [if_pos hkl, hrecl]
              rfl
          | @comp kr prr lrr rrr hpr =>
              have hkr : k < kr := hbr kr (wf_root_mem hwr)
              rw [verify_binary_tree.eq_def]
              dsimp only []
              rw [if_pos hkl, hrecl]
              simp only [except_ok_bind]
              rw [if_pos hkr]
              rfl
          | @node kr prr lrr rrr l2r r2r hclr hcrr =>
              have hkr : k < kr := hbr kr (wf_root_mem hwr)
              have hrec : verify_binary_tree (T.node kr prr l2r r2r) = .ok () :=
                ihr hwr (by simp)
              rw [verify_binary_tree.eq_def]
              dsimp only []
              rw [if_pos hkl, hrecl]
              simp only [except_ok_bind]
              rw [if_pos hkr]
              exact hrec

theorem is_treap_covers {sha : String → Int} {p t : T} (hc : Covers sha p t)
    (hw : WF sha t) (hnn : ∀ x ∈ collect_keys t, 0 ≤ to_priority sha x)
    (hne : t ≠ T.none) : is_treap p = .ok true := by
  have hpne : p ≠ T.none := by
    intro he
    subst he
    exact hne (covers_none_left_inv hc)
  rw [is_treap, verify_heap_covers p t hc hw hnn hpne]
  simp only [except_ok_bind]
  rw [verify_binary_tree_covers p t hc hw hpne]
  rfl

theorem is_treap_wf {sha : String → Int} {t : T} (hw : WF sha t)
    (hnn : ∀ x ∈ collect_keys t, 0 ≤ to_priority sha x)
    (hne : t ≠ T.none) : is_treap t = .ok true :=
  is_treap_covers (covers_refl_of_wf hw) hw hnn hne

/-! ### The error kinds `is_treap` and `warp` can produce -/

theorem verify_heap_err : ∀ t : T, ∀ e : Err, verify_heap t = .error e →
    e = .assertionFailed ∨ e = .attributeError := by
  intro t
  induction t with
  | none =>
      intro e h
      rw [verify_heap] at h
      exact Or.inr (Except.error.inj h).symm
  | comp kc pc lh rh =>
      intro e h
      rw [verify_heap] at h
      exact absurd h (by simp)
  | node k p l r ihl ihr =>
      intro e h
      rw [verify_heap] at h
      cases hml : (if l = T.none then pure (-1 : Int) else verify_heap l) with
      | error e1 =>
          rw [hml] at h
          simp only [except_error_bind] at h
          have he := Except.error.inj h
          subst he
          by_cases hl : l = T.none
          · rw [if_pos hl] at hml
            exact absurd hml (by simp)
          · rw [if_neg hl] at hml
            exact ihl e1 hml
      | ok ml =>
          rw [hml] at h
          simp only [except_ok_bind] at h
          cases hmr : (if r = T.none then pure (-1 : Int) else verify_heap r) with
          | error e1 =>
              rw [hmr] at h
              simp only [except_error_bind] at h
              have he := Except.error.inj h
              subst he
              by_cases hr : r = T.none
              · rw [if_pos hr] at hmr
                exact absurd hmr (by simp)
              · rw [if_neg hr] at hmr
                exact ihr e1 hmr
          | ok mr =>
              rw [hmr] at h
              simp only [except_ok_bind] at h
              by_cases hcnd : p > ml ∧ p > mr
              · rw [if_pos hcnd] at h
                exact absurd h (by simp)
              · rw [if_neg hcnd] at h
                exact Or.inl (Except.error.inj h).symm

theorem verify_binary_tree_err : ∀ t : T, ∀ e : Err,
    verify_binary_tree t = .error e →
    e = .assertionFailed ∨ e = .attributeError := by
  intro t
  induction t with
  | none =>
      intro e h
      rw [verify_binary_tree.eq_def] at h
      exact Or.inr (Except.error.inj h).symm
  | comp kc pc lh rh =>
      intro e h
      rw [verify_binary_tree.eq_def] at h
      exact absurd h (by simp)
  | node k p l r ihl ihr =>
      intro e h
      rw [verify_binary_tree.eq_def] at h
      cases l with
      | none =>
          dsimp only [] at h
          simp only [except_pure_eq_ok, except_ok_bind] at h
          cases r with
          | none => exact absurd h (by simp)
          | comp kr prr lh rh =>
              dsimp only [] at h
              by_cases hkr : k < kr
              · rw [if_pos hkr] at h
                exact absurd h (by simp)
              · rw [if_neg hkr] at h
                exact Or.inl (Except.error.inj h).symm
          | node kr prr lr rr =>
              dsimp only [] at h
              by_cases hkr : k < kr
              · rw [if_pos hkr] at h
                exact ihr e h
              · rw [if_neg hkr] at h
                exact Or.inl (Except.error.inj h).symm
      | comp kl pll lhl rhl =>
          dsimp only [] at h
          by_cases hkl : k > kl
          · rw [if_pos hkl] at h
            simp only [except_pure_eq_ok, except_ok_bind] at h
            cases r with
            | none => exact absurd h (by simp)
            | comp kr prr lh rh =>
                dsimp only [] at h
                by_cases hkr : k < kr
                · rw [if_pos hkr] at h
                  exact absurd h (by simp)
                · rw [if_neg hkr] at h
                  exact Or.inl (Except.error.inj h).symm
            | node kr prr lr rr =>
                dsimp only [] at h
                by_cases hkr : k < kr
                · rw [if_pos hkr] at h
                  exact ihr e h
                · rw [if_neg hkr] at h
                  exact Or.inl (Except.error.inj h).symm
          · rw [if_neg hkl] at h
            simp only [except_error_bind] at h
            exact Or.inl (Except.error.inj h).symm
      | node kl pll ll rl =>
          dsimp only [] at h
          by_cases hkl : k > kl
          · rw [if_pos hkl] at h
            cases hvl : verify_binary_tree (T.node kl pll ll rl) with
            | error e1 =>
                rw [hvl] at h
                simp only [except_error_bind] at h
                have he := Except.error.inj h
                subst he
                exact ihl e1 hvl
            | ok u =>
                cases u
                rw [hvl] at h
                simp only [except_ok_bind] at h
                cases r with
                | none => exact absurd h (by simp)
                | comp kr prr lh rh =>
                    dsimp only [] at h
                    by_cases hkr : k < kr
                    · rw [if_pos hkr] at h
                      exact absurd h (by simp)
                    · rw [if_neg hkr] at h
                      exact Or.inl (Except.error.inj h).symm
                | node kr prr lr rr =>
                    dsimp only [] at h
                    by_cases hkr : k < kr
                    · rw [if_pos hkr] at h
                      exact ihr e h
                    · rw [if_neg hkr] at h
                      exact Or.inl (Except.error.inj h).symm
          · rw [if_neg hkl] at h
            simp only [except_error_bind] at h
            exact Or.inl (Except.error.inj h).symm

theorem is_treap_err : ∀ (t : T) (e : Err), is_treap t = .error e →
    e = .assertionFailed ∨ e = .attributeError := by
  intro t e h
  rw [is_treap] at h
  cases hvh : verify_heap t with
  | error e1 =>
      rw [hvh] at h
      simp only [except_error_bind] at h
      have he := Except.error.inj h
      subst he
      exact verify_heap_err t e1 hvh
  | ok v =>
      rw [hvh] at h
      simp only [except_ok_bind] at h
      cases hvb : verify_binary_tree t with
      | error e1 =>
          rw [hvb] at h
          simp only [except_error_bind] at h
          have he := Except.error.inj h
          subst he
          exact verify_binary_tree_err t e1 hvb
      | ok u =>
          cases u
          rw [hvb] at h
          simp only [except_ok_bind] at h
          exact absurd h (by simp)

theorem warp_ok_shape {sha : String → Int} {digest : Digest} {proof : T}
    {added removed : Finset PyVal} {np : T} {d2 : Digest} {p2 : T}
    (h : warp sha digest proof added removed np = .ok (d2, p2)) :
    d2 = merkleRoot np ∧ p2 = np := by
  simp only [warp] at h
  repeat' split at h
  all_goals simp at h
  exact ⟨h.1.symm, h.2.symm⟩

theorem warp_never_invalid (sha : String → Int) (digest : Digest) (proof : T)
    (added removed : Finset PyVal) (np : T) :
    warp sha digest proof added removed np ≠ .error .invalidProof := by
  intro h
  simp only [warp] at h
  repeat' split at h
  all_goals simp at h
  rename_i heq
  rw [h] at heq
  rcases is_treap_err np Err.invalidProof heq with h2 | h2
  all_goals simp at h2

/-! ### Verifying a single-key exclusion proof -/

theorem verify_exclusions_single {t p : T} {k : Int}
    (hroot : merkleRoot p = merkleRoot t)
    (hfind : find p k = .ok Option.none) :
    verify_exclusions t [k] p = .ok true := by
  have hstep : verify_exclusion_step p k = pure () := by
    rw [verify_exclusion_step, hfind]
  rw [verify_exclusions, if_neg (by simp [hroot])]
  rw [List.mapM_cons, hstep]
  rfl

/-! ### Joining any nonempty list of proofs of the same tree -/

theorem join_proofs_covers {sha : String → Int} {t : T} (ps : List T) (p : T)
    (hc : Covers sha p t) (hcs : ∀ q ∈ ps, Covers sha q t) :
    join_proofs (p :: ps) = .ok (ps.foldl join_two_proofs p) ∧
    Covers sha (ps.foldl join_two_proofs p) t := by
  have hfold : Covers sha (ps.foldl join_two_proofs p) t := by
    induction ps generalizing p with
    | nil => exact hc
    | cons q qs ih =>
        rw [List.foldl_cons]
        exact ih (join_two_proofs p q)
          (join_covers p t hc q (hcs q (by simp)))
          (fun r hr => hcs r (List.mem_cons_of_mem q hr))
  have hra : merkleRoot p = merkleRoot t := covers_merkleRoot hc
  have hrj : merkleRoot (ps.foldl join_two_proofs p) = merkleRoot t :=
    covers_merkleRoot hfold
  refine ⟨?_, hfold⟩
  rw [join_proofs]
  rw [if_pos (by
    rw [List.all_eq_true]
    intro q hq
    rw [decide_eq_true_eq, covers_merkleRoot (hcs q hq), hra])]
  rw [if_pos (by rw [hrj, hra])]
  rfl

/-! ### The claims -/

/-- C1: order independence of construction — building the treap from any two
permutations of an element list (with pairwise distinct keys and
collision-free derived priorities) succeeds and produces trees with the
same Merkle root. -/
theorem build_order_independent {sha : String → Int} {els els2 : List PyVal}
    (hperm : els.Perm els2)
    (hnd : (els.map (to_key sha)).Nodup)
    (hinj : PrioInj sha (els.map (to_key sha)).toFinset) :
    ∃ t t2, build_treap sha els = .ok t ∧ build_treap sha els2 = .ok t2 ∧
      merkleRoot t = merkleRoot t2 := by
  have hmap : (els.map (to_key sha)).Perm (els2.map (to_key sha)) :=
    hperm.map (to_key sha)
  have hnd2 : (els2.map (to_key sha)).Nodup := hmap.nodup_iff.mp hnd
  have hfs : (els.map (to_key sha)).toFinset =
      (els2.map (to_key sha)).toFinset := by
    ext x
    simp only [List.mem_toFinset]
    exact hmap.mem_iff
  obtain ⟨t, h1, hw1, hk1⟩ := build_treap_spec els hnd hinj
  obtain ⟨t2, h2, hw2, hk2⟩ := build_treap_spec els2 hnd2 (hfs ▸ hinj)
  have hteq : t = t2 := wf_unique t t2 hw1 hw2 (by rw [hk1, hk2, hfs])
    (by rw [hk1]; exact hinj)
  exact ⟨t, t2, h1, h2, by rw [hteq]⟩

/-- C1 witness: the concrete two-element set {1, 2} built in both orders. -/
theorem build_order_independent_witness :
    ∃ t t2, build_treap toySha [PyVal.int 1, PyVal.int 2] = .ok t ∧
      build_treap toySha [PyVal.int 2, PyVal.int 1] = .ok t2 ∧
      merkleRoot t = merkleRoot t2 :=
  build_order_independent (by decide) (by decide) (by decide)

/-- C2: remove of an absent key, corrected — the call raises *KeyNotInTree*
exactly when the tree holds a key greater than the target; when the target
exceeds every key the first split returns an absent right part, the guard
skips the second split, and the call silently succeeds — contradicting the
spec, which promises the error unconditionally. -/
theorem remove_missing_key_spec {sha : String → Int} {t : T} {k : Int}
    (hw : WF sha t) (hk : k ∉ collect_keys t) :
    (remove t k = .error .keyNotInTree ↔ ∃ x ∈ collect_keys t, k < x) :=
  remove_notmem_iff hw hk

-- C2 counterexample: removing the absent key 10 from the singleton tree {4}
-- succeeds and returns the tree unchanged instead of raising KeyNotInTree.
unseal merge in
theorem remove_missing_key_silent_success :
    (10 : Int) ∉ collect_keys w4 ∧ remove w4 10 = .ok w4 := by
  decide

/-- C2 witness: the characterisation instantiated at the singleton tree {4}
and the absent key 10. -/
theorem remove_missing_key_spec_witness :
    remove w4 10 = .error .keyNotInTree ↔
      ∃ x ∈ collect_keys w4, (10 : Int) < x :=
  remove_missing_key_spec (WF_of_wfb toySha w4 (by decide)) (by decide)

/-- C3: proof soundness — on a nonempty well-formed tree, the inclusion
proof of a present key passes `verify_inclusions`, and the exclusion proof
of an absent key passes `verify_exclusions`. -/
theorem proof_soundness {sha : String → Int} {t : T} (k : Int)
    (hw : WF sha t) (hne : t ≠ T.none) :
    (k ∈ collect_keys t → ∃ p, prove_inclusion sha t k = .ok p ∧
      verify_inclusions t [k] p = .ok true) ∧
    (k ∉ collect_keys t → ∃ p, prove_exclusion sha t k = .ok p ∧
      verify_exclusions t [k] p = .ok true) := by
  constructor
  · intro hk
    obtain ⟨p, hok, hcov, hmem, _⟩ := prove_inclusion_spec hw hk
    exact ⟨p, hok, verify_inclusions_ok (covers_merkleRoot hcov).symm hmem⟩
  · intro hk
    obtain ⟨p, hok, hcov, hfind⟩ := prove_exclusion_spec hw hne hk
    exact ⟨p, hok, verify_exclusions_single (covers_merkleRoot hcov) hfind⟩

/-- C3 witness: the two-element tree {305, 306}, inclusion of 305 and
exclusion of 304. -/
theorem proof_soundness_witness :
    (∃ p, prove_inclusion toySha w12 305 = .ok p ∧
      verify_inclusions w12 [305] p = .ok true) ∧
    (∃ p, prove_exclusion toySha w12 304 = .ok p ∧
      verify_exclusions w12 [304] p = .ok true) :=
  ⟨(proof_soundness 305 (WF_of_wfb toySha w12 (by decide)) (by decide)).1
      (by decide),
   (proof_soundness 304 (WF_of_wfb toySha w12 (by decide)) (by decide)).2
      (by decide)⟩

/-- C4: accumulator equivalence, corrected — running a sequence of
single-element inserts and removes through the `Treaccp` façade and feeding
each freshly produced proof to the accumulator yields, after every step,
exactly the tree-side Merkle root — provided the tree run succeeds, derived
priorities are collision-free on every key involved, and no step empties
the tree (an empty intermediate root breaks the accumulator, see the
counterexample). -/
theorem acc_tree_equivalence {sha : String → Int} {t : T} {ops : List Op}
    {trace : List (T × T)} (hw : WF sha t) (hne : t ≠ T.none)
    (hinj : PrioInj sha (collect_keys t ∪ opsKeys sha ops))
    (htr : runTree sha t ops = .ok trace)
    (hnn : ∀ pr ∈ trace, pr.1 ≠ T.none) :
    ∃ ds, runAcc sha (merkleRoot t) (ops.zip (trace.map Prod.snd)) = .ok ds ∧
      ds = trace.map (fun pr => merkleRoot pr.1) :=
  run_replay ops t hw hne hinj trace htr hnn

-- C4 counterexample: removing the only element succeeds on the tree (the
-- root becomes absent) while the corresponding accumulator step dies with
-- an AttributeError, so the after-step digests cannot agree.
unseal merge in
theorem acc_tree_equivalence_breaks_on_empty :
    treeStep toySha w1 (Op.rem (PyVal.int 1)) = .ok (T.none, w1) ∧
    accStep toySha (merkleRoot w1) (Op.rem (PyVal.int 1)) w1 =
      .error .attributeError := by
  decide

-- C4 witness: one insert of the element 2 into the singleton tree {1},
-- replayed on the accumulator via the freshly produced proof.
set_option maxRecDepth 8000 in
unseal merge in
theorem acc_tree_equivalence_witness :
    ∃ ds, runAcc toySha (merkleRoot w1)
        ([Op.ins (PyVal.int 2)].zip ([(w12, w1)].map Prod.snd)) = .ok ds ∧
      ds = [(w12, w1)].map (fun pr => merkleRoot pr.1) :=
  acc_tree_equivalence (WF_of_wfb toySha w1 (by decide)) (by decide)
    (by decide) (by decide) (by decide)

/-- C5: warp, corrected — a successful warp indeed returns the Merkle root
of the new proof together with that proof, but a validation failure other
than the old-digest comparison (which is *MerkleRootMismatch*) raises an
*AssertionError* — or an `AttributeError` for an absent proof — never the
*InvalidProof* kind the spec names. -/
theorem warp_spec (sha : String → Int) (digest : Digest) (proof : T)
    (added removed : Finset PyVal) (new_proof : T) :
    (∀ d2 p2, warp sha digest proof added removed new_proof = .ok (d2, p2) →
      d2 = merkleRoot new_proof ∧ p2 = new_proof) ∧
    warp sha digest proof added removed new_proof ≠ .error .invalidProof :=
  ⟨fun _ _ h => warp_ok_shape h,
   warp_never_invalid sha digest proof added removed new_proof⟩

-- C5 counterexample: warping with an added element whose key is already
-- present fails with AssertionError, not with the InvalidProof kind.
theorem warp_assertion_not_invalid_proof :
    warp toySha (merkleRoot w1) w1 {PyVal.int 1} ∅ w1 =
      .error .assertionFailed ∧ Err.assertionFailed ≠ Err.invalidProof := by
  decide

/-- C5 witness: a concrete successful warp (no additions, no removals). -/
theorem warp_spec_witness : merkleRoot w1 = merkleRoot w1 ∧ w1 = w1 :=
  (warp_spec toySha (merkleRoot w1) w1 ∅ ∅ w1).1 (merkleRoot w1) w1 (by decide)

/-- C6: `insert_proof`, corrected — when the failed search for the new key
ends below the node with key `lk` (the entry `find_path(t, key)[-2]`), the
function returns the exclusion proof for `lk + 1`, guarded by the
Merkle-root assert — not the exclusion proof for `key + 1` that the spec
describes. -/
theorem insert_proof_uses_last_node_key {sha : String → Int} {t : T}
    {k lk : Int} (hw : WF sha t) (hne : t ≠ T.none) (hk : k ∉ collect_keys t)
    (hlast : lastT t k = Option.some lk) :
    insert_proof sha t k =
      (prove_exclusion sha t (lk + 1)).bind (fun proof =>
        if merkleRoot t = merkleRoot proof then pure proof
        else .error .assertionFailed) :=
  insert_proof_eq hw hne hk hlast

-- C6 counterexample: in the tree {305, 321}, inserting 320 produces a
-- proof (for 305 + 1 = 306) although prove_exclusion(320 + 1) dies with
-- KeyInTree, so insert_proof(320) cannot equal prove_exclusion(321).
theorem insert_proof_not_key_succ :
    insert_proof toySha wAB 320 = .ok wAB ∧
    prove_exclusion toySha wAB (320 + 1) = .error .keyInTree ∧
    insert_proof toySha wAB 320 ≠ prove_exclusion toySha wAB (320 + 1) := by
  decide

/-- C6 witness: the singleton tree {4} and the key 10, whose search ends
below the node with key 4. -/
theorem insert_proof_uses_last_node_key_witness :
    insert_proof toySha w4 10 =
      (prove_exclusion toySha w4 (4 + 1)).bind (fun proof =>
        if merkleRoot w4 = merkleRoot proof then pure proof
        else .error .assertionFailed) :=
  insert_proof_uses_last_node_key (WF_of_wfb toySha w4 (by decide))
    (by decide) (by decide) (by decide)

/-- C7: round-trip — inserting an absent key and removing it again (or
removing a present key and reinserting it) restores the original Merkle
root, given collision-free derived priorities. -/
theorem round_trip {sha : String → Int} {t : T} {k : Int} (hw : WF sha t)
    (hinj : PrioInj sha (collect_keys t ∪ {k})) :
    (k ∉ collect_keys t → ∃ t2 t3, insert sha t k = .ok t2 ∧
      remove t2 k = .ok t3 ∧ merkleRoot t3 = merkleRoot t) ∧
    (k ∈ collect_keys t → ∃ t2 t3, remove t k = .ok t2 ∧
      insert sha t2 k = .ok t3 ∧ merkleRoot t3 = merkleRoot t) := by
  constructor
  · intro hk
    obtain ⟨t2, hins, hw2, hkeys2⟩ := insert_spec hw hk hinj
    have hmem2 : k ∈ collect_keys t2 := by
      rw [hkeys2]
      simp
    have hinj2 : PrioInj sha (collect_keys t2) := by
      rw [hkeys2]
      exact hinj
    obtain ⟨t3, hrem, hw3, hkeys3⟩ := remove_mem_spec hw2 hmem2 hinj2
    have hkeq : collect_keys t3 = collect_keys t := by
      rw [hkeys3, hkeys2]
      ext x
      simp only [Finset.mem_erase, Finset.mem_union, Finset.mem_singleton]
      constructor
      · rintro ⟨hne, hx | hx⟩
        · exact hx
        · exact absurd hx hne
      · intro hx
        exact ⟨fun he => hk (he ▸ hx), Or.inl hx⟩
    have hteq : t3 = t := wf_unique t3 t hw3 hw hkeq
      (by rw [hkeq]; exact prioinj_mono Finset.subset_union_left hinj)
    exact ⟨t2, t3, hins, hrem, by rw [hteq]⟩
  · intro hk
    have hinjt : PrioInj sha (collect_keys t) :=
      prioinj_mono Finset.subset_union_left hinj
    obtain ⟨t2, hrem, hw2, hkeys2⟩ := remove_mem_spec hw hk hinjt
    have hk2 : k ∉ collect_keys t2 := by
      rw [hkeys2]
      exact Finset.not_mem_erase k _
    have hinj2 : PrioInj sha (collect_keys t2 ∪ {k}) := by
      refine prioinj_mono ?_ hinj
      rw [hkeys2]
      intro x hx
      rcases Finset.mem_union.mp hx with hx | hx
      · exact Finset.mem_union.mpr (Or.inl (Finset.mem_of_mem_erase hx))
      · exact Finset.mem_union.mpr (Or.inr hx)
    obtain ⟨t3, hins, hw3, hkeys3⟩ := insert_spec hw2 hk2 hinj2
    have hkeq : collect_keys t3 = collect_keys t := by
      rw [hkeys3, hkeys2]
      ext x
      simp only [Finset.mem_union, Finset.mem_erase, Finset.mem_singleton]
      constructor
      · rintro (⟨hne, hx⟩ | hx)
        · exact hx
        · exact hx ▸ hk
      · intro hx
        by_cases hxe : x = k
        · exact Or.inr hxe
        · exact Or.inl ⟨hxe, hx⟩
    have hteq : t3 = t := wf_unique t3 t hw3 hw hkeq
      (by rw [hkeq]; exact hinjt)
    exact ⟨t2, t3, hrem, hins, by rw [hteq]⟩

/-- C7 witness: the singleton tree {305} with the absent key 306 and the
present key 305. -/
theorem round_trip_witness :
    (∃ t2 t3, insert toySha w1 306 = .ok t2 ∧ remove t2 306 = .ok t3 ∧
      merkleRoot t3 = merkleRoot w1) ∧
    (∃ t2 t3, remove w1 305 = .ok t2 ∧ insert toySha t2 305 = .ok t3 ∧
      merkleRoot t3 = merkleRoot w1) :=
  ⟨(round_trip (WF_of_wfb toySha w1 (by decide)) (by decide)).1 (by decide),
   (round_trip (WF_of_wfb toySha w1 (by decide)) (by decide)).2 (by decide)⟩

/-- C8: treap validity, corrected — with nonnegative and collision-free
derived priorities, the outputs of build (on a nonempty element list),
insert and prove_inclusion satisfy `is_treap`, and so does the output of
`join_proofs` applied to any nonempty list of proofs of the same tree;
remove results satisfy it whenever they are nonempty — but a remove may
return an absent root, on which `is_treap` itself raises an
`AttributeError` (see the counterexample). -/
theorem treap_validity {sha : String → Int} {t : T} {k : Int} (hw : WF sha t)
    (hnn : ∀ x ∈ collect_keys t ∪ {k}, 0 ≤ to_priority sha x)
    (hinj : PrioInj sha (collect_keys t ∪ {k})) :
    (k ∉ collect_keys t → ∃ t2, insert sha t k = .ok t2 ∧
      is_treap t2 = .ok true) ∧
    (k ∈ collect_keys t → ∃ t2, remove t k = .ok t2 ∧
      (t2 ≠ T.none → is_treap t2 = .ok true)) ∧
    (k ∈ collect_keys t → ∃ p, prove_inclusion sha t k = .ok p ∧
      is_treap p = .ok true) ∧
    (t ≠ T.none → ∀ (p1 : T) (ps : List T), Covers sha p1 t →
      (∀ q ∈ ps, Covers sha q t) →
      ∃ j, join_proofs (p1 :: ps) = .ok j ∧ is_treap j = .ok true) ∧
    (∀ els : List PyVal, els ≠ [] → (els.map (to_key sha)).Nodup →
      PrioInj sha (els.map (to_key sha)).toFinset →
      (∀ x ∈ (els.map (to_key sha)).toFinset, 0 ≤ to_priority sha x) →
      ∃ t2, build_treap sha els = .ok t2 ∧ is_treap t2 = .ok true) := by
  have hnnt : ∀ x ∈ collect_keys t, 0 ≤ to_priority sha x := fun x hx =>
    hnn x (Finset.mem_union.mpr (Or.inl hx))
  refine ⟨?_, ?_, ?_, ?_, ?_⟩
  · intro hk
    obtain ⟨t2, hins, hw2, hkeys2⟩ := insert_spec hw hk hinj
    have hne2 : t2 ≠ T.none :=
      keys_ne_none (show k ∈ collect_keys t2 by rw [hkeys2]; simp)
    refine ⟨t2, hins, is_treap_wf hw2 ?_ hne2⟩
    intro x hx
    exact hnn x (hkeys2 ▸ hx)
  · intro hk
    obtain ⟨t2, hrem, hw2, hkeys2⟩ :=
      remove_mem_spec hw hk (prioinj_mono Finset.subset_union_left hinj)
    refine ⟨t2, hrem, fun hne2 => is_treap_wf hw2 ?_ hne2⟩
    intro x hx
    refine hnn x ?_
    rw [hkeys2] at hx
    exact Finset.mem_union.mpr (Or.inl (Finset.mem_of_mem_erase hx))
  · intro hk
    have hne : t ≠ T.none := keys_ne_none hk
    obtain ⟨p, hok, hcov, hmem, _⟩ := prove_inclusion_spec hw hk
    exact ⟨p, hok, is_treap_covers hcov hw hnnt hne⟩
  · intro hne p1 ps hc1 hcs
    obtain ⟨hjok, hjcov⟩ := join_proofs_covers ps p1 hc1 hcs
    exact ⟨ps.foldl join_two_proofs p1, hjok,
      is_treap_covers hjcov hw hnnt hne⟩
  · intro els hnil hnd hinj2 hnn2
    obtain ⟨t2, hok, hw2, hkeys⟩ := build_treap_spec els hnd hinj2
    have hne2 : t2 ≠ T.none := by
      cases els with
      | nil => exact absurd rfl hnil
      | cons e rest =>
          have hmem : to_key sha e ∈ collect_keys t2 := by
            rw [hkeys]
            simp
          exact keys_ne_none hmem
    refine ⟨t2, hok, is_treap_wf hw2 ?_ hne2⟩
    intro x hx
    refine hnn2 x ?_
    rw [← hkeys]
    exact hx

-- C8 counterexample: removing the only element yields an absent root, and
-- is_treap on an absent root raises an AttributeError instead of holding.
unseal merge in
theorem treap_validity_fails_on_empty :
    remove w1 305 = .ok T.none ∧
    is_treap T.none = .error .attributeError := by
  decide

/-- C8 witness: the singleton tree {305} — an insert of the absent key 306,
the inclusion proof of 305, the join of the compressed root proof with the
full tree, and a build over the two elements {1, 2}. -/
theorem treap_validity_witness :
    (∃ t2, insert toySha w1 306 = .ok t2 ∧ is_treap t2 = .ok true) ∧
    (∃ p, prove_inclusion toySha w1 305 = .ok p ∧ is_treap p = .ok true) ∧
    (∃ j, join_proofs [w1c, w1] = .ok j ∧ is_treap j = .ok true) ∧
    (∃ t2, build_treap toySha [PyVal.int 1, PyVal.int 2] = .ok t2 ∧
      is_treap t2 = .ok true) :=
  ⟨(@treap_validity toySha w1 306 (WF_of_wfb toySha w1 (by decide))
      (by decide) (by decide)).1 (by decide),
   (@treap_validity toySha w1 305 (WF_of_wfb toySha w1 (by decide))
      (by decide) (by decide)).2.2.1 (by decide),
   (@treap_validity toySha w1 305 (WF_of_wfb toySha w1 (by decide))
      (by decide) (by decide)).2.2.2.1 (by decide) w1c [w1]
      (show Covers toySha w1c w1 from
        @Covers.comp toySha 305 (to_priority toySha 305) T.none T.none rfl)
      (fun q hq => by
        simp only [List.mem_singleton] at hq
        subst hq
        exact covers_refl_of_wf (WF_of_wfb toySha w1 (by decide))),
   (@treap_validity toySha w1 305 (WF_of_wfb toySha w1 (by decide))
      (by decide) (by decide)).2.2.2.2 [PyVal.int 1, PyVal.int 2]
      (by decide) (by decide) (by decide) (by decide)⟩

/-- C9: the element-to-key adapter stringifies before hashing, so an
integer and its decimal-string form share a key, and building from either
singleton yields the same tree and hence the same Merkle root. -/
theorem key_stringification_collision (sha : String → Int) (n : Int) :
    to_key sha (PyVal.int n) = to_key sha (PyVal.str (toString n)) ∧
    build_treap sha [PyVal.int n] = build_treap sha [PyVal.str (toString n)] ∧
    Except.map merkleRoot (build_treap sha [PyVal.int n]) =
      Except.map merkleRoot (build_treap sha [PyVal.str (toString n)]) :=
  ⟨rfl, rfl, rfl⟩

/-- C10: on an absent root the `Treaccp` façade insert dies with an
`AttributeError` — none of the six library error kinds — although the
node-layer insert applied to an absent tree succeeds and returns the
singleton treap over the element's key. -/
theorem empty_root_insert_attribute_error (sha : String → Int) (el : PyVal) :
    treaccp_insert_many sha T.none [el] = .error .attributeError ∧
    (Err.attributeError ≠ Err.keyNotInTree ∧
     Err.attributeError ≠ Err.keyInTree ∧
     Err.attributeError ≠ Err.merkleRootMismatch ∧
     Err.attributeError ≠ Err.invalidProof ∧
     Err.attributeError ≠ Err.touchedCompressedNode ∧
     Err.attributeError ≠ Err.noRoot) ∧
    insert sha T.none (to_key sha el) =
      .ok (T.node (to_key sha el) (to_priority sha (to_key sha el))
        T.none T.none) := by
  refine ⟨rfl, by decide, ?_⟩
  exact insert_eq_ok rfl rfl (merge_node_none _ _ _ _) (merge_none_node _ _ _ _)

end Treaccp
